import Mathlib

/-!
Bit-banged I2C master of `esp32/mods/machine_i2c.c`

A shallow embedding of the software I2C engine: the line primitives, the
start/stop conditions, the byte transfers, the transaction orchestrator
(`mp_hal_i2c_write`, `mp_hal_i2c_read`, `mp_hal_i2c_write_mem`,
`mp_hal_i2c_read_mem`) and the bus scanner (`machine_i2c_scan`).

The C code mutates a `machine_i2c_obj_t` and two pins; here every function
takes the object and returns the updated object.  Bus activity is recorded
in the field `log`, oldest event first.  What the data line reads back is
decided by a `Responder`, a function of the activity so far.
-/

namespace MachineI2C

/-! ## Data model -/

/-- A completed call into the bit/byte transfer engine, with its arguments
(after narrowing to `uint8_t`) and its result. -/
inductive Call where
  | start
  | stop
  | write_byte (val : Nat) (ack : Bool)
  | read_byte (nack : Bool) (val : Nat)
  deriving DecidableEq, Repr

/-- One step of bus activity.  The first eight constructors are the calls the
C code makes to the platform (`MICROPY_BEGIN_ATOMIC_SECTION`,
`MICROPY_END_ATOMIC_SECTION`, `ets_delay_us`, `pin_set_value` on either line
with either level, `pin_get_value` on the data line).  `ret c` is written
when one of `mp_hal_i2c_start`, `mp_hal_i2c_stop`, `mp_hal_i2c_write_byte`,
`mp_hal_i2c_read_byte` returns. -/
inductive Ev where
  | atomic_begin
  | atomic_end
  | delay (us : Nat)
  | scl_low
  | scl_release
  | sda_low
  | sda_release
  | sda_read (v : Nat)
  | ret (c : Call)
  deriving DecidableEq, Repr

/-- The other side of the bus: the value `pin_get_value(self->sda)` returns,
given everything that happened on the bus so far. -/
abbrev Responder := List Ev → Nat

/-- The struct `machine_i2c_obj_t`.  `scl` and `sda` hold `self->scl->value` and
`self->sda->value` (0 = driven low, 1 = released); `log` is the bus activity
so far. -/
structure machine_i2c_obj_t where
  us_delay : Nat
  baudrate : Nat
  scl : Nat
  sda : Nat
  bus_id : Nat
  log : List Ev
  deriving DecidableEq, Repr

/-- Result of a transaction: `bus_error` stands for
`nlr_raise(OSError "I2C bus error")`. -/
inductive Outcome where
  | ok
  | bus_error
  deriving DecidableEq, Repr

/-- Appends one event to the activity log. -/
def emit (e : Ev) (self : machine_i2c_obj_t) : machine_i2c_obj_t :=
  { self with log := self.log ++ [e] }

/-- The completed engine calls of a log, in order. -/
def calls (log : List Ev) : List Call :=
  log.filterMap fun e => match e with
    | Ev.ret c => some c
    | _ => none

/-- The platform-level events of a log (everything but the `ret` marks). -/
def wire (log : List Ev) : List Ev :=
  log.filter fun e => match e with
    | Ev.ret _ => false
    | _ => true

/-! ## Initialisation -/

/-- Function `mp_hal_i2c_init`: `us_delay = 500000 / baudrate` in `uint32_t` arithmetic,
clamped up from 0 to 1; both pins are then configured open-drain with pull-up
and value 1 (`pin_config (..., 1)`).  Division by zero is undefined in C and
gives `none`; the caller `machine_i2c_init_helper` only passes `baudrate > 0`. -/
def mp_hal_i2c_init (self : machine_i2c_obj_t) : Option machine_i2c_obj_t :=
  if self.baudrate = 0 then none
  else
    let us_delay := (500000 / self.baudrate) % 2 ^ 32
    let us_delay := if us_delay = 0 then 1 else us_delay
    some { self with us_delay := us_delay, scl := 1, sda := 1 }

/-! ## GPIO line primitives -/

/-- Function `mp_hal_i2c_delay`: `ets_delay_us(self->us_delay)`. -/
def mp_hal_i2c_delay (self : machine_i2c_obj_t) : machine_i2c_obj_t :=
  emit (Ev.delay self.us_delay) self

/-- Function `mp_hal_i2c_scl_low`: `self->scl->value = 0; pin_set_value(self->scl)`. -/
def mp_hal_i2c_scl_low (self : machine_i2c_obj_t) : machine_i2c_obj_t :=
  emit Ev.scl_low { self with scl := 0 }

/-- Function `mp_hal_i2c_scl_release`: `self->scl->value = 1; pin_set_value(self->scl)`. -/
def mp_hal_i2c_scl_release (self : machine_i2c_obj_t) : machine_i2c_obj_t :=
  emit Ev.scl_release { self with scl := 1 }

/-- Function `mp_hal_i2c_sda_low`: `self->sda->value = 0; pin_set_value(self->sda)`. -/
def mp_hal_i2c_sda_low (self : machine_i2c_obj_t) : machine_i2c_obj_t :=
  emit Ev.sda_low { self with sda := 0 }

/-- Function `mp_hal_i2c_sda_release`: `self->sda->value = 1; pin_set_value(self->sda)`. -/
def mp_hal_i2c_sda_release (self : machine_i2c_obj_t) : machine_i2c_obj_t :=
  emit Ev.sda_release { self with sda := 1 }

/-- Function `mp_hal_i2c_sda_read`: `pin_get_value(self->sda)`, answered by the responder. -/
def mp_hal_i2c_sda_read (env : Responder) (self : machine_i2c_obj_t) :
    Nat × machine_i2c_obj_t :=
  let v := env self.log
  (v, emit (Ev.sda_read v) self)

/-- Platform call `MICROPY_BEGIN_ATOMIC_SECTION()`, opening an atomic section. -/
def MICROPY_BEGIN_ATOMIC_SECTION (self : machine_i2c_obj_t) : machine_i2c_obj_t :=
  emit Ev.atomic_begin self

/-- Platform call `MICROPY_END_ATOMIC_SECTION(mask)`, closing an atomic section. -/
def MICROPY_END_ATOMIC_SECTION (self : machine_i2c_obj_t) : machine_i2c_obj_t :=
  emit Ev.atomic_end self

/-! ## Bit/byte transfer engine -/

/-- Function `mp_hal_i2c_start`. -/
def mp_hal_i2c_start (self : machine_i2c_obj_t) : machine_i2c_obj_t :=
  let self := MICROPY_BEGIN_ATOMIC_SECTION self
  let self := mp_hal_i2c_sda_release self
  let self := mp_hal_i2c_delay self
  let self := mp_hal_i2c_scl_release self
  let self := mp_hal_i2c_delay self
  let self := mp_hal_i2c_sda_low self
  let self := mp_hal_i2c_delay self
  let self := MICROPY_END_ATOMIC_SECTION self
  emit (Ev.ret Call.start) self

/-- Function `mp_hal_i2c_stop`. -/
def mp_hal_i2c_stop (self : machine_i2c_obj_t) : machine_i2c_obj_t :=
  let self := MICROPY_BEGIN_ATOMIC_SECTION self
  let self := mp_hal_i2c_delay self
  let self := mp_hal_i2c_sda_low self
  let self := mp_hal_i2c_delay self
  let self := mp_hal_i2c_scl_release self
  let self := mp_hal_i2c_delay self
  let self := mp_hal_i2c_sda_release self
  let self := mp_hal_i2c_delay self
  let self := MICROPY_END_ATOMIC_SECTION self
  emit (Ev.ret Call.stop) self

/-- Body of the `for (int i = 7; i >= 0; i--)` loop of `mp_hal_i2c_write_byte`
for one value of `i`. -/
def write_byte_bit (val i : Nat) (self : machine_i2c_obj_t) : machine_i2c_obj_t :=
  let self := MICROPY_BEGIN_ATOMIC_SECTION self
  let self := mp_hal_i2c_scl_low self
  let self :=
    if (val >>> i) &&& 1 ≠ 0 then mp_hal_i2c_sda_release self
    else mp_hal_i2c_sda_low self
  let self := mp_hal_i2c_delay self
  let self := mp_hal_i2c_scl_release self
  let self := mp_hal_i2c_delay self
  MICROPY_END_ATOMIC_SECTION self

/-- Function `mp_hal_i2c_write_byte`: the argument is narrowed to `uint8_t`; the result
is `!ret`, true exactly when the data line read 0 in the ninth clock. -/
def mp_hal_i2c_write_byte (env : Responder) (self : machine_i2c_obj_t) (val : Nat) :
    Bool × machine_i2c_obj_t :=
  let val := val % 256
  let self := mp_hal_i2c_delay self
  let self := [7, 6, 5, 4, 3, 2, 1, 0].foldl (fun s i => write_byte_bit val i s) self
  let self := MICROPY_BEGIN_ATOMIC_SECTION self
  let self := mp_hal_i2c_scl_low self
  let self := mp_hal_i2c_sda_release self
  let self := mp_hal_i2c_delay self
  let self := mp_hal_i2c_scl_release self
  let self := mp_hal_i2c_delay self
  let (ret, self) := mp_hal_i2c_sda_read env self
  let self := mp_hal_i2c_delay self
  let self := mp_hal_i2c_scl_low self
  let self := MICROPY_END_ATOMIC_SECTION self
  (ret == 0, emit (Ev.ret (Call.write_byte val (ret == 0))) self)

/-- Body of the `for (int i = 7; i >= 0; i--)` loop of `mp_hal_i2c_read_byte`;
`data` is a `uint8_t`, so the shifted-in value is narrowed to 8 bits. -/
def read_byte_bit (env : Responder) (st : Nat × machine_i2c_obj_t) :
    Nat × machine_i2c_obj_t :=
  let data := st.1
  let self := st.2
  let self := MICROPY_BEGIN_ATOMIC_SECTION self
  let self := mp_hal_i2c_scl_low self
  let self := mp_hal_i2c_delay self
  let self := mp_hal_i2c_scl_release self
  let self := mp_hal_i2c_delay self
  let (bit, self) := mp_hal_i2c_sda_read env self
  let data := ((data <<< 1) ||| bit) % 256
  let self := MICROPY_END_ATOMIC_SECTION self
  (data, self)

/-- Function `mp_hal_i2c_read_byte`: returns the C return value (always 1, "success"),
the byte stored in `*val`, and the updated object. -/
def mp_hal_i2c_read_byte (env : Responder) (self : machine_i2c_obj_t) (nack : Bool) :
    Bool × Nat × machine_i2c_obj_t :=
  let self := mp_hal_i2c_delay self
  let (data, self) :=
    [7, 6, 5, 4, 3, 2, 1, 0].foldl (fun st _ => read_byte_bit env st) (0, self)
  let self := MICROPY_BEGIN_ATOMIC_SECTION self
  let self := mp_hal_i2c_scl_low self
  let self := mp_hal_i2c_delay self
  let self := if !nack then mp_hal_i2c_sda_low self else self
  let self := mp_hal_i2c_delay self
  let self := mp_hal_i2c_scl_release self
  let self := mp_hal_i2c_delay self
  let self := mp_hal_i2c_scl_low self
  let self := mp_hal_i2c_sda_release self
  let self := MICROPY_END_ATOMIC_SECTION self
  (true, data, emit (Ev.ret (Call.read_byte nack data)) self)

/-! ## Transaction orchestrator -/

/-- The `er:` label shared by the four transactions: stop, then raise. -/
def er (self : machine_i2c_obj_t) : Outcome × machine_i2c_obj_t :=
  (Outcome.bus_error, mp_hal_i2c_stop self)

/-- The loop `while (len--) { if (!mp_hal_i2c_write_byte(self, *data++)) goto er; }`:
returns false when it left through `goto er`. -/
def write_loop (env : Responder) : List Nat → machine_i2c_obj_t → Bool × machine_i2c_obj_t
  | [], self => (true, self)
  | d :: data, self =>
    let (ack, self) := mp_hal_i2c_write_byte env self d
    if !ack then (false, self) else write_loop env data self

/-- Function `mp_hal_i2c_write`; `addr` is narrowed to `uint8_t` on entry. -/
def mp_hal_i2c_write (env : Responder) (self : machine_i2c_obj_t) (addr : Nat)
    (data : List Nat) (stop : Bool) : Outcome × machine_i2c_obj_t :=
  let addr := addr % 256
  let self := mp_hal_i2c_start self
  let (ack, self) := mp_hal_i2c_write_byte env self (addr <<< 1)
  if !ack then er self
  else
    let (done, self) := write_loop env data self
    if !done then er self
    else
      let self := if stop then mp_hal_i2c_stop self else self
      (Outcome.ok, self)

/-- The loop `while (len--) { if (!mp_hal_i2c_read_byte(self, data++, len == 0)) goto er; }`:
`buf` collects the bytes stored through `data++`; the first component is false
when the loop left through `goto er`. -/
def read_loop (env : Responder) :
    Nat → List Nat → machine_i2c_obj_t → Bool × List Nat × machine_i2c_obj_t
  | 0, buf, self => (true, buf, self)
  | len + 1, buf, self =>
    let (r, v, self) := mp_hal_i2c_read_byte env self (len == 0)
    let buf := buf ++ [v]
    if !r then (false, buf, self) else read_loop env len buf self

/-- Function `mp_hal_i2c_read`; returns the outcome, the bytes stored in the buffer (in
the order they were stored) and the updated object. -/
def mp_hal_i2c_read (env : Responder) (self : machine_i2c_obj_t) (addr : Nat)
    (len : Nat) : Outcome × List Nat × machine_i2c_obj_t :=
  let addr := addr % 256
  let self := mp_hal_i2c_start self
  let (ack, self) := mp_hal_i2c_write_byte env self ((addr <<< 1) ||| 1)
  if !ack then ((er self).1, [], (er self).2)
  else
    let (done, buf, self) := read_loop env len [] self
    if !done then ((er self).1, buf, (er self).2)
    else
      let self := mp_hal_i2c_stop self
      (Outcome.ok, buf, self)

/-- The address phase shared by `mp_hal_i2c_write_mem` and `mp_hal_i2c_read_mem`:
the slave address byte, then `memaddr >> 8` when `memaddr > 0xFF`, then
`memaddr`.  Returns false when one of the bytes left through `goto er`. -/
def write_memaddr (env : Responder) (self : machine_i2c_obj_t) (addr memaddr : Nat) :
    Bool × machine_i2c_obj_t :=
  let (ack, self) := mp_hal_i2c_write_byte env self (addr <<< 1)
  if !ack then (false, self)
  else
    let (ack, self) :=
      if memaddr > 0xFF then mp_hal_i2c_write_byte env self (memaddr >>> 8)
      else (true, self)
    if !ack then (false, self)
    else
      let (ack, self) := mp_hal_i2c_write_byte env self memaddr
      if !ack then (false, self) else (true, self)

/-- Function `mp_hal_i2c_write_mem`; `addr` is narrowed to `uint8_t` and `memaddr` to
`uint16_t` on entry. -/
def mp_hal_i2c_write_mem (env : Responder) (self : machine_i2c_obj_t)
    (addr memaddr : Nat) (src : List Nat) : Outcome × machine_i2c_obj_t :=
  let addr := addr % 256
  let memaddr := memaddr % 65536
  let self := mp_hal_i2c_start self
  let (sent, self) := write_memaddr env self addr memaddr
  if !sent then er self
  else
    let (done, self) := write_loop env src self
    if !done then er self
    else
      let self := mp_hal_i2c_stop self
      (Outcome.ok, self)

/-- Function `mp_hal_i2c_read_mem`; `addr` is narrowed to `uint8_t` and `memaddr` to
`uint16_t` on entry. -/
def mp_hal_i2c_read_mem (env : Responder) (self : machine_i2c_obj_t)
    (addr memaddr : Nat) (len : Nat) : Outcome × List Nat × machine_i2c_obj_t :=
  let addr := addr % 256
  let memaddr := memaddr % 65536
  let self := mp_hal_i2c_start self
  let (sent, self) := write_memaddr env self addr memaddr
  if !sent then ((er self).1, [], (er self).2)
  else mp_hal_i2c_read env self addr len

/-! ## Bus scanner -/

/-- One iteration of the bit-bang loop of `machine_i2c_scan`. -/
def scan_probe (env : Responder) (st : List Nat × machine_i2c_obj_t) (addr : Nat) :
    List Nat × machine_i2c_obj_t :=
  let list := st.1
  let self := st.2
  let self := mp_hal_i2c_start self
  let (ack, self) := mp_hal_i2c_write_byte env self ((addr <<< 1) ||| 1)
  let self := mp_hal_i2c_stop self
  if ack then (list ++ [addr], self) else (list, self)

/-- Function `machine_i2c_scan`.  For `bus_id < 2` the loop `for (addr = 0x08; addr <= 0x78; ++addr)`
asks the hardware controller (`hw_ping addr` is the result of
`hw_i2c_slave_ping`, which runs in the vendor driver); otherwise the loop
`for (addr = 0x08; addr < 0x78; ++addr)` bit-bangs each probe. -/
def machine_i2c_scan (hw_ping : Nat → Bool) (env : Responder) (self : machine_i2c_obj_t) :
    List Nat × machine_i2c_obj_t :=
  if self.bus_id < 2 then
    ((List.range' 0x08 (0x78 + 1 - 0x08)).foldl
      (fun list addr => if hw_ping addr then list ++ [addr] else list) [], self)
  else
    (List.range' 0x08 (0x78 - 0x08)).foldl (scan_probe env) ([], self)

/-! ## Observing a run -/

/-- The bus activity between an earlier state `self` and a later state `self'`
of the same object. -/
def since (self self' : machine_i2c_obj_t) : List Ev :=
  self'.log.drop self.log.length

/-- The call is a write-byte that was not acknowledged. -/
def is_nack : Call → Bool
  | Call.write_byte _ ack => !ack
  | _ => false

/-- Some write-byte of this activity was not acknowledged. -/
def nacked (log : List Ev) : Bool :=
  (calls log).any is_nack

/-- An object with both lines released and no bus activity yet, on the
bit-bang bus (`bus_id` 2) at 100 kHz. -/
def idle_bus : machine_i2c_obj_t :=
  { us_delay := 5, baudrate := 100000, scl := 1, sda := 1, bus_id := 2, log := [] }

/-- A responder that holds the data line low whenever it is read. -/
def always_ack : Responder := fun _ => 0

/-- Events of one pass of the bit loop of `mp_hal_i2c_write_byte`, with
half-period `d`. -/
def write_bit_events (d val i : Nat) : List Ev :=
  [Ev.atomic_begin, Ev.scl_low,
   if (val >>> i) &&& 1 ≠ 0 then Ev.sda_release else Ev.sda_low,
   Ev.delay d, Ev.scl_release, Ev.delay d, Ev.atomic_end]

/-- Events of `mp_hal_i2c_write_byte` up to the moment the data line is read. -/
def write_byte_head (d val : Nat) : List Ev :=
  Ev.delay d ::
    (write_bit_events d val 7 ++ write_bit_events d val 6 ++ write_bit_events d val 5 ++
     write_bit_events d val 4 ++ write_bit_events d val 3 ++ write_bit_events d val 2 ++
     write_bit_events d val 1 ++ write_bit_events d val 0 ++
     [Ev.atomic_begin, Ev.scl_low, Ev.sda_release, Ev.delay d, Ev.scl_release, Ev.delay d])

/-- Events of `mp_hal_i2c_write_byte` from the read of the data line (which
returned `ret`) to the return. -/
def write_byte_tail (d val ret : Nat) : List Ev :=
  [Ev.sda_read ret, Ev.delay d, Ev.scl_low, Ev.atomic_end,
   Ev.ret (Call.write_byte val (ret == 0))]

/-- Events of one pass of the bit loop of `mp_hal_i2c_read_byte` before the data
line is read. -/
def read_bit_head (d : Nat) : List Ev :=
  [Ev.atomic_begin, Ev.scl_low, Ev.delay d, Ev.scl_release, Ev.delay d]

/-- Events of one pass of the bit loop of `mp_hal_i2c_read_byte` in which the
data line read `bit`. -/
def read_bit_events (d bit : Nat) : List Ev :=
  read_bit_head d ++ [Ev.sda_read bit, Ev.atomic_end]

/-- The values the responder `env` returns in `n` consecutive passes of the bit
loop of `mp_hal_i2c_read_byte` that start with activity `log`. -/
def read_samples (env : Responder) (d : Nat) : Nat → List Ev → List Nat
  | 0, _ => []
  | n + 1, log =>
    let bit := env (log ++ read_bit_head d)
    bit :: read_samples env d n (log ++ read_bit_events d bit)

/-- The `uint8_t` that the bit loop of `mp_hal_i2c_read_byte` builds from the
values read, first value first, starting from `data`. -/
def shift_in (data : Nat) (bits : List Nat) : Nat :=
  bits.foldl (fun data bit => ((data <<< 1) ||| bit) % 256) data

/-- Events of `mp_hal_i2c_read_byte` when the data line read `bits`. -/
def read_byte_events (d : Nat) (nack : Bool) (bits : List Nat) : List Ev :=
  Ev.delay d :: (bits.flatMap (read_bit_events d) ++
    ([Ev.atomic_begin, Ev.scl_low, Ev.delay d] ++ (if nack then [] else [Ev.sda_low]) ++
     [Ev.delay d, Ev.scl_release, Ev.delay d, Ev.scl_low, Ev.sda_release, Ev.atomic_end,
      Ev.ret (Call.read_byte nack (shift_in 0 bits))]))

/-- The engine calls of a run of write-bytes that were all acknowledged. -/
def acked (bytes : List Nat) : List Call :=
  bytes.map fun b => Call.write_byte (b % 256) true

/-- The generate-nack arguments of `len` consecutive read-bytes when only the
last one generates NACK. -/
def nack_flags (len : Nat) : List Bool :=
  List.replicate (len - 1) false ++ (if len = 0 then [] else [true])

/-- The values `mp_hal_i2c_write_mem` and `mp_hal_i2c_read_mem` pass to write-byte
for the memory address: `memaddr >> 8` first when `memaddr > 0xFF`, then
`memaddr`. -/
def memaddr_bytes (memaddr : Nat) : List Nat :=
  if memaddr > 0xFF then [memaddr >>> 8, memaddr] else [memaddr]

/-- The 7-bit addresses carried by the write-bytes of a log, in order. -/
def probed_addresses (log : List Ev) : List Nat :=
  (calls log).filterMap fun c => match c with
    | Call.write_byte v _ => some (v >>> 1)
    | _ => none

/-- The 7-bit addresses carried by the acknowledged write-bytes of a log, in
order. -/
def acked_addresses (log : List Ev) : List Nat :=
  (calls log).filterMap fun c => match c with
    | Call.write_byte v true => some (v >>> 1)
    | _ => none

/-- The engine calls of one bit-bang probe of `machine_i2c_scan` for address
`p.1` whose write-byte returned `p.2`. -/
def probe_calls (p : Nat × Bool) : List Call :=
  [Call.start, Call.write_byte ((p.1 <<< 1) ||| 1) p.2, Call.stop]

/-! ## A simulated bus with devices -/

/-- What a device listening on the bus has seen: whether the master has the
clock and data lines released, and the data levels at the rising clock edges
since the last START condition. -/
structure Listener where
  scl : Bool
  sda : Bool
  bits : List Bool
  deriving DecidableEq, Repr

/-- The listener after one more event: a rising clock edge clocks in the data
level, and the data line falling while the clock is released is a START. -/
def Listener.step (st : Listener) : Ev → Listener
  | Ev.scl_low => { st with scl := false }
  | Ev.scl_release =>
    if st.scl then st else { st with scl := true, bits := st.bits ++ [st.sda] }
  | Ev.sda_low =>
    if st.scl && st.sda then { st with sda := false, bits := [] }
    else { st with sda := false }
  | Ev.sda_release => { st with sda := true }
  | _ => st

/-- The listener after a whole log, starting from an idle bus. -/
def listen (log : List Ev) : Listener :=
  log.foldl Listener.step { scl := true, sda := true, bits := [] }

/-- The number spelled by bits, most significant first. -/
def bits_value (bits : List Bool) : Nat :=
  bits.foldl (fun n b => 2 * n + b.toNat) 0

/-- A bus on which exactly the devices with the 7-bit addresses `addrs` are
present: the data line reads 0 in the acknowledge slot of an address byte
(ninth rising clock edge since START) whose upper seven bits are one of
`addrs`, and reads 1 at any other time. -/
def device_bus (addrs : List Nat) : Responder := fun log =>
  if (listen log).bits.length = 9 ∧ bits_value ((listen log).bits.take 7) ∈ addrs then 0
  else 1

/-! ## Line-level views of a log -/

/-- The pin operations of a log: every drive or release of either line and
every read of the data line, without the delays, the atomic-section brackets
and the `ret` marks. -/
def pin_events (log : List Ev) : List Ev :=
  log.filter fun e => match e with
    | Ev.scl_low => true
    | Ev.scl_release => true
    | Ev.sda_low => true
    | Ev.sda_release => true
    | Ev.sda_read _ => true
    | _ => false

/-- The clock-line operations of a log. -/
def clock_events (log : List Ev) : List Ev :=
  log.filter fun e => match e with
    | Ev.scl_low => true
    | Ev.scl_release => true
    | _ => false

/-- The values read from the data line in a log, in order. -/
def samples (log : List Ev) : List Nat :=
  log.filterMap fun e => match e with
    | Ev.sda_read v => some v
    | _ => none

/-- The data-line operation that presents bit `i` of `val`: released for 1,
driven low for 0. -/
def data_bit_event (val i : Nat) : Ev :=
  if (val >>> i) &&& 1 ≠ 0 then Ev.sda_release else Ev.sda_low

/-! ## The data-line rule -/

/-- The levels (clock, data) the object holds for its two lines, `true` for
released. -/
def lines_of (self : machine_i2c_obj_t) : Bool × Bool :=
  (self.scl != 0, self.sda != 0)

/-- The levels (clock, data) the master drives after one more event. -/
def line_step (st : Bool × Bool) : Ev → Bool × Bool
  | Ev.scl_low => (false, st.2)
  | Ev.scl_release => (true, st.2)
  | Ev.sda_low => (st.1, false)
  | Ev.sda_release => (st.1, true)
  | _ => st

/-- The levels (clock, data) the master drives after a log. -/
def lines_after (st : Bool × Bool) (log : List Ev) : Bool × Bool :=
  log.foldl line_step st

/-- The engine call an event belongs to: the call whose `ret` mark is the first
one at or after the event. -/
def enclosing_call : List Ev → Option Call
  | [] => none
  | Ev.ret c :: _ => some c
  | _ :: rest => enclosing_call rest

/-- Whether an event keeps the data-line rule when the lines are at `st` and
the event belongs to call `c`: driving the data line low is allowed when the
clock is low, when the data line is low already, or inside a start condition;
releasing it is allowed when the clock is low, when the data line is released
already, or inside a stop condition. -/
def allowed (c : Option Call) (st : Bool × Bool) : Ev → Bool
  | Ev.sda_low => !st.1 || !st.2 || c == some Call.start
  | Ev.sda_release => !st.1 || st.2 || c == some Call.stop
  | _ => true

/-- The data-line rule over a whole log that starts with the lines at `st`. -/
def data_rule : Bool × Bool → List Ev → Bool
  | _, [] => true
  | st, e :: rest => allowed (enclosing_call (e :: rest)) st e && data_rule (line_step st e) rest

/-- The data-line rule over the events of one call `c`. -/
def seg_ok (c : Option Call) : Bool × Bool → List Ev → Bool
  | _, [] => true
  | st, e :: rest => allowed c st e && seg_ok c (line_step st e) rest

/-- The data-line changes made while the clock is released, in order: a
`sda_low` stands for a high-to-low change, a `sda_release` for a low-to-high
change. -/
def data_changes_clock_high : Bool × Bool → List Ev → List Ev
  | _, [] => []
  | st, e :: rest =>
    (match e with
      | Ev.sda_low => if st.1 && st.2 then [Ev.sda_low] else []
      | Ev.sda_release => if st.1 && !st.2 then [Ev.sda_release] else []
      | _ => []) ++ data_changes_clock_high (line_step st e) rest

/-- One bit-bang operation of the bus. -/
inductive Op where
  | write (addr : Nat) (data : List Nat) (stop : Bool)
  | read (addr len : Nat)
  | write_mem (addr memaddr : Nat) (src : List Nat)
  | read_mem (addr memaddr len : Nat)
  | scan
  deriving DecidableEq, Repr

/-- The object after one operation, whether it succeeded or raised. -/
def run_op (hw_ping : Nat → Bool) (env : Responder) (self : machine_i2c_obj_t) :
    Op → machine_i2c_obj_t
  | Op.write addr data stop => (mp_hal_i2c_write env self addr data stop).2
  | Op.read addr len => (mp_hal_i2c_read env self addr len).2.2
  | Op.write_mem addr memaddr src => (mp_hal_i2c_write_mem env self addr memaddr src).2
  | Op.read_mem addr memaddr len => (mp_hal_i2c_read_mem env self addr memaddr len).2.2
  | Op.scan => (machine_i2c_scan hw_ping env self).2

/-- The object after a sequence of operations. -/
def run_ops (hw_ping : Nat → Bool) (env : Responder) (ops : List Op)
    (self : machine_i2c_obj_t) : machine_i2c_obj_t :=
  ops.foldl (run_op hw_ping env) self

/-- Going from `self` to `self'` only appends to the log, the appended part
keeps the data-line rule when the lines start at `st`, is made of whole engine
calls, and leaves the lines at `st'`. -/
def Follows (st st' : Bool × Bool) (self self' : machine_i2c_obj_t) : Prop :=
  ∃ l, self'.log = self.log ++ l ∧ lines_after st l = st' ∧
    ∀ rest, data_rule st (l ++ rest) = data_rule st' rest

/-! ## How a failed transaction ends -/

/-- Events of `mp_hal_i2c_stop` with half-period `d`. -/
def stop_events (d : Nat) : List Ev :=
  [Ev.atomic_begin, Ev.delay d, Ev.sda_low, Ev.delay d, Ev.scl_release, Ev.delay d,
   Ev.sda_release, Ev.delay d, Ev.atomic_end, Ev.ret Call.stop]

/-- The state `last` was reached from `self` by bus activity that ends with a
stop condition: `last` is the result of `mp_hal_i2c_stop` on a state `s` that
follows `self`, so the events of that stop are the end of the log, the last
engine call is the stop, and both lines are released. -/
def ends_with_stop (self last : machine_i2c_obj_t) : Prop :=
  ∃ s l, s.log = self.log ++ l ∧ last = mp_hal_i2c_stop s ∧
    since self last = l ++ stop_events s.us_delay ∧
    (calls (since self last)).getLast? = some Call.stop ∧
    last.scl = 1 ∧ last.sda = 1

/-! ## Bit order -/

/-- Bits 7 down to 0 of a byte, as line levels (1 = released, 0 = driven low). -/
def bit_levels (val : Nat) : List Nat :=
  [7, 6, 5, 4, 3, 2, 1, 0].map fun i => (val >>> i) &&& 1

/-- A responder that plays back the given values, one per read of the data
line, and lets the line float high (1) afterwards. -/
def replay (bits : List Nat) : Responder := fun log =>
  bits.getD (samples log).length 1

/-! ## What a listener hears -/

/-- Going from `self` to `self'` only appends to the log, and a listener in
state `st` before the appended events is in state `st'` after them. -/
def Hears (st st' : Listener) (self self' : machine_i2c_obj_t) : Prop :=
  ∃ l, self'.log = self.log ++ l ∧ l.foldl Listener.step st = st'

/-- Bits 7 down to 0 of a byte as data-line levels, `true` for released. -/
def byte_bits (val : Nat) : List Bool :=
  [val.testBit 7, val.testBit 6, val.testBit 5, val.testBit 4,
   val.testBit 3, val.testBit 2, val.testBit 1, val.testBit 0]

/-- The data-line levels the master presents at the nine rising clock edges of
a read-byte entered with the data line released: released during the eight
data slots, and in the acknowledge slot released (`true`, NACK) exactly when
`nack` is set and driven low (`false`, ACK) otherwise. -/
def read_slot_levels (nack : Bool) : List Bool :=
  List.replicate 8 true ++ [nack]

/-! ## Basic facts about the log -/

theorem calls_append (a b : List Ev) : calls (a ++ b) = calls a ++ calls b := by
  simp [calls]

theorem since_of_log_eq {self self' : machine_i2c_obj_t} {l : List Ev}
    (h : self'.log = self.log ++ l) : since self self' = l := by
  simp [since, h]

theorem start_eq (self : machine_i2c_obj_t) :
    mp_hal_i2c_start self =
      { self with
        scl := 1, sda := 0,
        log := self.log ++
          [Ev.atomic_begin, Ev.sda_release, Ev.delay self.us_delay, Ev.scl_release,
           Ev.delay self.us_delay, Ev.sda_low, Ev.delay self.us_delay, Ev.atomic_end,
           Ev.ret Call.start] } := by
  simp [mp_hal_i2c_start, MICROPY_BEGIN_ATOMIC_SECTION, MICROPY_END_ATOMIC_SECTION,
    mp_hal_i2c_delay, mp_hal_i2c_scl_release, mp_hal_i2c_sda_low, mp_hal_i2c_sda_release, emit]

theorem stop_eq (self : machine_i2c_obj_t) :
    mp_hal_i2c_stop self =
      { self with
        scl := 1, sda := 1,
        log := self.log ++
          [Ev.atomic_begin, Ev.delay self.us_delay, Ev.sda_low, Ev.delay self.us_delay,
           Ev.scl_release, Ev.delay self.us_delay, Ev.sda_release, Ev.delay self.us_delay,
           Ev.atomic_end, Ev.ret Call.stop] } := by
  simp [mp_hal_i2c_stop, MICROPY_BEGIN_ATOMIC_SECTION, MICROPY_END_ATOMIC_SECTION,
    mp_hal_i2c_delay, mp_hal_i2c_scl_release, mp_hal_i2c_sda_low, mp_hal_i2c_sda_release, emit]

theorem write_byte_bit_eq (val i : Nat) (self : machine_i2c_obj_t) :
    write_byte_bit val i self =
      { self with
        scl := 1, sda := if (val >>> i) &&& 1 ≠ 0 then 1 else 0,
        log := self.log ++ write_bit_events self.us_delay val i } := by
  unfold write_byte_bit write_bit_events
  split <;>
  simp [MICROPY_BEGIN_ATOMIC_SECTION, MICROPY_END_ATOMIC_SECTION, mp_hal_i2c_scl_low,
    mp_hal_i2c_delay, mp_hal_i2c_scl_release, mp_hal_i2c_sda_low, mp_hal_i2c_sda_release, emit, *]

theorem write_byte_eq (env : Responder) (self : machine_i2c_obj_t) (val : Nat) :
    mp_hal_i2c_write_byte env self val =
      ((env (self.log ++ write_byte_head self.us_delay (val % 256)) == 0),
       { self with
         scl := 0, sda := 1,
         log := self.log ++ write_byte_head self.us_delay (val % 256) ++
           write_byte_tail self.us_delay (val % 256)
             (env (self.log ++ write_byte_head self.us_delay (val % 256))) }) := by
  simp [mp_hal_i2c_write_byte, write_byte_bit_eq, MICROPY_BEGIN_ATOMIC_SECTION,
    MICROPY_END_ATOMIC_SECTION, mp_hal_i2c_scl_low,
    mp_hal_i2c_delay, mp_hal_i2c_scl_release, mp_hal_i2c_sda_release,
    mp_hal_i2c_sda_read, emit, write_byte_head, write_byte_tail]

theorem read_byte_bit_eq (env : Responder) (data : Nat) (self : machine_i2c_obj_t) :
    read_byte_bit env (data, self) =
      (((data <<< 1) ||| env (self.log ++ read_bit_head self.us_delay)) % 256,
       { self with
         scl := 1,
         log := self.log ++
           read_bit_events self.us_delay (env (self.log ++ read_bit_head self.us_delay)) }) := by
  simp [read_byte_bit, MICROPY_BEGIN_ATOMIC_SECTION, MICROPY_END_ATOMIC_SECTION,
    mp_hal_i2c_scl_low, mp_hal_i2c_delay, mp_hal_i2c_scl_release, mp_hal_i2c_sda_read, emit,
    read_bit_head, read_bit_events]

theorem read_bits_eq (env : Responder) (l : List Nat) :
    ∀ (data : Nat) (self : machine_i2c_obj_t),
      l.foldl (fun st _ => read_byte_bit env st) (data, self) =
        (shift_in data (read_samples env self.us_delay l.length self.log),
         { self with
           scl := if l.length = 0 then self.scl else 1,
           log := self.log ++
             (read_samples env self.us_delay l.length self.log).flatMap
               (read_bit_events self.us_delay) }) := by
  induction l with
  | nil => intro data self; simp [read_samples, shift_in]
  | cons i l ih =>
    intro data self
    rw [List.foldl_cons, read_byte_bit_eq, ih]
    simp [read_samples, shift_in]

theorem read_byte_eq (env : Responder) (self : machine_i2c_obj_t) (nack : Bool) :
    mp_hal_i2c_read_byte env self nack =
      (true,
       shift_in 0 (read_samples env self.us_delay 8 (self.log ++ [Ev.delay self.us_delay])),
       { self with
         scl := 0, sda := 1,
         log := self.log ++ read_byte_events self.us_delay nack
           (read_samples env self.us_delay 8 (self.log ++ [Ev.delay self.us_delay])) }) := by
  unfold mp_hal_i2c_read_byte
  simp only [read_bits_eq]
  cases nack <;>
  simp [MICROPY_BEGIN_ATOMIC_SECTION, MICROPY_END_ATOMIC_SECTION,
    mp_hal_i2c_scl_low, mp_hal_i2c_delay, mp_hal_i2c_scl_release, mp_hal_i2c_sda_low,
    mp_hal_i2c_sda_release, emit, read_byte_events]

theorem calls_write_byte_head (d val : Nat) : calls (write_byte_head d val) = [] := by
  have h : ∀ i, calls (write_bit_events d val i) = [] := by
    intro i
    unfold write_bit_events
    split <;> simp [calls]
  unfold write_byte_head
  rw [show ∀ (e : Ev) (l : List Ev), e :: l = [e] ++ l from fun _ _ => rfl]
  simp only [calls_append, h]
  simp [calls]

theorem calls_write_byte_tail (d val ret : Nat) :
    calls (write_byte_tail d val ret) = [Call.write_byte val (ret == 0)] := by
  simp [write_byte_tail, calls]

theorem calls_read_byte_events (d : Nat) (nack : Bool) (bits : List Nat) :
    calls (read_byte_events d nack bits) = [Call.read_byte nack (shift_in 0 bits)] := by
  have h : ∀ l : List Nat, calls (l.flatMap (read_bit_events d)) = [] := by
    intro l
    induction l with
    | nil => simp [calls]
    | cons b l ih =>
      rw [List.flatMap_cons, calls_append, ih]
      simp [read_bit_events, read_bit_head, calls]
  unfold read_byte_events
  rw [show ∀ (e : Ev) (l : List Ev), e :: l = [e] ++ l from fun _ _ => rfl]
  rw [calls_append, calls_append, h]
  cases nack <;> simp [calls]

/-- A write-byte only appends to the log, and adds one completed call. -/
theorem write_byte_run (env : Responder) (self : machine_i2c_obj_t) (val : Nat) :
    ∃ l, (mp_hal_i2c_write_byte env self val).2.log = self.log ++ l ∧
      calls l = [Call.write_byte (val % 256) (mp_hal_i2c_write_byte env self val).1] := by
  rw [write_byte_eq]
  refine ⟨_, by simp only [List.append_assoc]; rfl, ?_⟩
  rw [calls_append, calls_write_byte_head, calls_write_byte_tail]
  rfl

/-- The write loop stops at the first byte that is not acknowledged. -/
theorem write_loop_run (env : Responder) (data : List Nat) :
    ∀ self : machine_i2c_obj_t,
      ∃ l, (write_loop env data self).2.log = self.log ++ l ∧
        (((write_loop env data self).1 = true ∧ calls l = acked data) ∨
         ((write_loop env data self).1 = false ∧
            ∃ pre b post, data = pre ++ b :: post ∧
              calls l = acked pre ++ [Call.write_byte (b % 256) false])) := by
  induction data with
  | nil => intro self; exact ⟨[], by simp [write_loop], Or.inl ⟨rfl, by simp [acked, calls]⟩⟩
  | cons d data ih =>
    intro self
    obtain ⟨l1, hl1, hc1⟩ := write_byte_run env self d
    unfold write_loop
    cases hack : (mp_hal_i2c_write_byte env self d).1 with
    | false =>
      refine ⟨l1, by simpa [hack] using hl1, Or.inr ⟨by simp [hack], [], d, data, rfl, ?_⟩⟩
      simpa [hack, acked] using hc1
    | true =>
      obtain ⟨l2, hl2, h2⟩ := ih (mp_hal_i2c_write_byte env self d).2
      refine ⟨l1 ++ l2, by simp [hack, hl2, hl1], ?_⟩
      rcases h2 with ⟨hok, hc2⟩ | ⟨hko, pre, b, post, hd, hc2⟩
      · left
        refine ⟨by simpa [hack] using hok, ?_⟩
        rw [calls_append, hc1, hc2, hack]
        simp [acked]
      · right
        refine ⟨by simpa [hack] using hko, d :: pre, b, post, by simp [hd], ?_⟩
        rw [calls_append, hc1, hc2, hack]
        simp [acked]

theorem start_run (self : machine_i2c_obj_t) :
    ∃ l, (mp_hal_i2c_start self).log = self.log ++ l ∧ calls l = [Call.start] := by
  rw [start_eq]
  exact ⟨_, rfl, by simp [calls]⟩

theorem stop_run (self : machine_i2c_obj_t) :
    ∃ l, (mp_hal_i2c_stop self).log = self.log ++ l ∧ calls l = [Call.stop] := by
  rw [stop_eq]
  exact ⟨_, rfl, by simp [calls]⟩

/-- The address byte and the payload of `mp_hal_i2c_write` go through one write
loop. -/
theorem write_eq_loop (env : Responder) (self : machine_i2c_obj_t) (addr : Nat)
    (data : List Nat) (stop : Bool) :
    mp_hal_i2c_write env self addr data stop =
      if (write_loop env (((addr % 256) <<< 1) :: data) (mp_hal_i2c_start self)).1 then
        (Outcome.ok,
          if stop then
            mp_hal_i2c_stop
              (write_loop env (((addr % 256) <<< 1) :: data) (mp_hal_i2c_start self)).2
          else (write_loop env (((addr % 256) <<< 1) :: data) (mp_hal_i2c_start self)).2)
      else er (write_loop env (((addr % 256) <<< 1) :: data) (mp_hal_i2c_start self)).2 := by
  unfold mp_hal_i2c_write
  simp only [write_loop]
  cases h : (mp_hal_i2c_write_byte env (mp_hal_i2c_start self) ((addr % 256) <<< 1)).1 with
  | false => simp [h]
  | true =>
    simp only [Bool.not_true, Bool.false_eq_true, if_false]
    cases h2 : (write_loop env data
      (mp_hal_i2c_write_byte env (mp_hal_i2c_start self) ((addr % 256) <<< 1)).2).1 <;>
    simp [h2]

/-- What `mp_hal_i2c_write` does on the bus, for any responder. -/
theorem write_run (env : Responder) (self : machine_i2c_obj_t) (addr : Nat)
    (data : List Nat) (stop : Bool) :
    ∃ l, (mp_hal_i2c_write env self addr data stop).2.log = self.log ++ l ∧
      (((mp_hal_i2c_write env self addr data stop).1 = Outcome.ok ∧
          calls l = Call.start :: acked (((addr % 256) <<< 1) :: data) ++
            (if stop then [Call.stop] else [])) ∨
       ((mp_hal_i2c_write env self addr data stop).1 = Outcome.bus_error ∧
          ∃ pre b post, ((addr % 256) <<< 1) :: data = pre ++ b :: post ∧
            calls l = Call.start :: acked pre ++ [Call.write_byte (b % 256) false, Call.stop])) := by
  obtain ⟨l0, hl0, hc0⟩ := start_run self
  obtain ⟨l1, hl1, h1⟩ :=
    write_loop_run env (((addr % 256) <<< 1) :: data) (mp_hal_i2c_start self)
  obtain ⟨l2, hl2, hc2⟩ :=
    stop_run (write_loop env (((addr % 256) <<< 1) :: data) (mp_hal_i2c_start self)).2
  rw [write_eq_loop]
  rcases h1 with ⟨hok, hc1⟩ | ⟨hko, pre, b, post, hd, hc1⟩
  · simp only [hok, if_true]
    cases stop with
    | true =>
      refine ⟨l0 ++ l1 ++ l2, by simp [hl2, hl1, hl0], Or.inl ⟨trivial, ?_⟩⟩
      simp [calls_append, hc0, hc1, hc2]
    | false =>
      refine ⟨l0 ++ l1, by simp [hl1, hl0], Or.inl ⟨trivial, ?_⟩⟩
      simp [calls_append, hc0, hc1]
  · simp only [hko, er]
    refine ⟨l0 ++ l1 ++ l2, by simp [hl2, hl1, hl0], Or.inr ⟨by simp, pre, b, post, hd, ?_⟩⟩
    simp [calls_append, hc0, hc1, hc2]

theorem any_is_nack_acked (bytes : List Nat) : (acked bytes).any is_nack = false := by
  induction bytes with
  | nil => rfl
  | cons b bytes ih => simp [acked, is_nack]

/-! ## Write transactions -/

/-- C6: for an address in 0..127 and a payload of bytes, when no write-byte of
the transaction is left unacknowledged, `mp_hal_i2c_write` returns without
error and performs exactly: start, write-byte of `addr << 1`, one write-byte
per payload byte in payload order, and a stop exactly when `stop` is set. -/
theorem write_all_acknowledged (env : Responder) (self : machine_i2c_obj_t) (addr : Nat)
    (data : List Nat) (stop : Bool) (haddr : addr ≤ 127) (hdata : ∀ d ∈ data, d < 256)
    (hack : nacked (since self (mp_hal_i2c_write env self addr data stop).2) = false) :
    (mp_hal_i2c_write env self addr data stop).1 = Outcome.ok ∧
    calls (since self (mp_hal_i2c_write env self addr data stop).2) =
      Call.start :: Call.write_byte (addr <<< 1) true ::
        (data.map fun d => Call.write_byte d true) ++ (if stop then [Call.stop] else []) := by
  obtain ⟨l, hl, h⟩ := write_run env self addr data stop
  rw [since_of_log_eq hl] at hack ⊢
  have hmap : (data.map fun d => Call.write_byte (d % 256) true) =
      data.map fun d => Call.write_byte d true := by
    apply List.map_congr_left
    intro d hd
    rw [Nat.mod_eq_of_lt (hdata d hd)]
  have hA : (addr % 256) <<< 1 % 256 = addr <<< 1 := by
    rw [Nat.shiftLeft_eq, Nat.shiftLeft_eq]; omega
  rcases h with ⟨hok, hc⟩ | ⟨_, pre, b, post, _, hc⟩
  · refine ⟨hok, ?_⟩
    rw [hc]
    simp [acked, hmap, hA]
  · exfalso
    rw [nacked, hc] at hack
    simp [is_nack] at hack

set_option maxRecDepth 100000 in
/-- C6 at a concrete input: address 0x50, payload `[0xAB]`, stop requested,
every byte acknowledged. -/
theorem write_all_acknowledged_witness :
    (mp_hal_i2c_write always_ack idle_bus 0x50 [0xAB] true).1 = Outcome.ok ∧
    calls (since idle_bus (mp_hal_i2c_write always_ack idle_bus 0x50 [0xAB] true).2) =
      [Call.start, Call.write_byte 0xA0 true, Call.write_byte 0xAB true, Call.stop] :=
  write_all_acknowledged always_ack idle_bus 0x50 [0xAB] true (by decide) (by decide)
    (by decide)

/-- C7: for every address, payload and stop flag, `mp_hal_i2c_write` raises the
bus error exactly when some write-byte of the transaction (the address byte or
a payload byte) is not acknowledged; when it fails, it has written the address
byte and the payload bytes up to and including the first one not acknowledged
(`b`; the bytes `post` after it are never written) and then issued one stop.
With an empty payload and stop requested it issues start, the address byte and
stop, and fails exactly when the address byte is not acknowledged. -/
theorem write_fails_iff_nack (env : Responder) (self : machine_i2c_obj_t) (addr : Nat)
    (data : List Nat) (stop : Bool) :
    ((mp_hal_i2c_write env self addr data stop).1 = Outcome.bus_error ↔
      nacked (since self (mp_hal_i2c_write env self addr data stop).2) = true) ∧
    ((mp_hal_i2c_write env self addr data stop).1 = Outcome.bus_error →
      ∃ pre b post, ((addr % 256) <<< 1) :: data = pre ++ b :: post ∧
        calls (since self (mp_hal_i2c_write env self addr data stop).2) =
          Call.start :: acked pre ++ [Call.write_byte (b % 256) false, Call.stop]) ∧
    (∃ ack, calls (since self (mp_hal_i2c_write env self addr [] true).2) =
        [Call.start, Call.write_byte ((addr % 256) <<< 1 % 256) ack, Call.stop] ∧
      ((mp_hal_i2c_write env self addr [] true).1 = Outcome.bus_error ↔ ack = false)) := by
  refine ⟨?_, ?_, ?_⟩
  · obtain ⟨l, hl, h⟩ := write_run env self addr data stop
    rw [since_of_log_eq hl]
    rcases h with ⟨hok, hc⟩ | ⟨hko, pre, b, post, _, hc⟩
    · rw [hok, nacked, hc]
      have h1 := any_is_nack_acked (((addr % 256) <<< 1) :: data)
      cases stop <;> simp [is_nack, List.any_append, h1]
    · rw [hko, nacked, hc]
      simp [is_nack, List.any_append]
  · intro hfail
    obtain ⟨l, hl, h⟩ := write_run env self addr data stop
    rw [since_of_log_eq hl]
    rcases h with ⟨hok, _⟩ | ⟨_, pre, b, post, hd, hc⟩
    · rw [hok] at hfail
      cases hfail
    · exact ⟨pre, b, post, hd, hc⟩
  · obtain ⟨l, hl, h⟩ := write_run env self addr [] true
    rw [since_of_log_eq hl]
    rcases h with ⟨hok, hc⟩ | ⟨hko, pre, b, post, hd, hc⟩
    · refine ⟨true, ?_, ?_⟩
      · rw [hc]
        simp [acked]
      · rw [hok]
        simp
    · refine ⟨false, ?_, ?_⟩
      · cases pre with
        | nil =>
          simp only [List.nil_append, List.cons.injEq] at hd
          rw [hc, hd.1]
          simp [acked]
        | cons x pre =>
          simp only [List.cons_append, List.cons.injEq] at hd
          have := congrArg List.length hd.2
          simp at this
          omega
      · rw [hko]
        simp

/-! ## Read transactions -/

theorem nack_flags_succ (len : Nat) : nack_flags (len + 1) = (len == 0) :: nack_flags len := by
  cases len with
  | zero => simp [nack_flags]
  | succ n => simp [nack_flags, List.replicate_succ]

theorem nack_flags_length (len : Nat) : (nack_flags len).length = len := by
  unfold nack_flags
  split <;> simp <;> omega

/-- A read-byte only appends to the log, adds one completed call, and reports
success. -/
theorem read_byte_run (env : Responder) (self : machine_i2c_obj_t) (nack : Bool) :
    ∃ l, (mp_hal_i2c_read_byte env self nack).2.2.log = self.log ++ l ∧
      calls l = [Call.read_byte nack (mp_hal_i2c_read_byte env self nack).2.1] ∧
      (mp_hal_i2c_read_byte env self nack).1 = true := by
  rw [read_byte_eq]
  exact ⟨_, rfl, calls_read_byte_events _ _ _, rfl⟩

/-- The read loop never leaves through `goto er`: it performs `len` read-bytes
and stores their values in order. -/
theorem read_loop_run (env : Responder) (len : Nat) :
    ∀ (buf : List Nat) (self : machine_i2c_obj_t),
      ∃ l vals, (read_loop env len buf self).1 = true ∧
        (read_loop env len buf self).2.1 = buf ++ vals ∧ vals.length = len ∧
        (read_loop env len buf self).2.2.log = self.log ++ l ∧
        calls l = List.zipWith Call.read_byte (nack_flags len) vals := by
  induction len with
  | zero => intro buf self; exact ⟨[], [], by simp [read_loop], by simp [read_loop], rfl,
      by simp [read_loop], by simp [calls]⟩
  | succ n ih =>
    intro buf self
    obtain ⟨l1, hl1, hc1, hr1⟩ := read_byte_run env self (n == 0)
    obtain ⟨l2, vals, h1, h2, h3, h4, h5⟩ :=
      ih (buf ++ [(mp_hal_i2c_read_byte env self (n == 0)).2.1])
        (mp_hal_i2c_read_byte env self (n == 0)).2.2
    have hstep : read_loop env (n + 1) buf self =
        read_loop env n (buf ++ [(mp_hal_i2c_read_byte env self (n == 0)).2.1])
          (mp_hal_i2c_read_byte env self (n == 0)).2.2 := by
      rw [read_loop]
      simp [hr1]
    rw [hstep]
    refine ⟨l1 ++ l2, (mp_hal_i2c_read_byte env self (n == 0)).2.1 :: vals, h1, ?_, ?_, ?_, ?_⟩
    · simp [h2]
    · simp [h3]
    · simp [h4, hl1]
    · rw [calls_append, hc1, h5, nack_flags_succ]
      simp

/-- What `mp_hal_i2c_read` does on the bus, for any responder. -/
theorem read_run (env : Responder) (self : machine_i2c_obj_t) (addr len : Nat) :
    ∃ l, (mp_hal_i2c_read env self addr len).2.2.log = self.log ++ l ∧
      (((mp_hal_i2c_read env self addr len).1 = Outcome.ok ∧
          (mp_hal_i2c_read env self addr len).2.1.length = len ∧
          calls l = [Call.start, Call.write_byte ((((addr % 256) <<< 1) ||| 1) % 256) true] ++
            List.zipWith Call.read_byte (nack_flags len) (mp_hal_i2c_read env self addr len).2.1 ++
            [Call.stop]) ∨
       ((mp_hal_i2c_read env self addr len).1 = Outcome.bus_error ∧
          (mp_hal_i2c_read env self addr len).2.1 = [] ∧
          calls l = [Call.start, Call.write_byte ((((addr % 256) <<< 1) ||| 1) % 256) false,
            Call.stop])) := by
  obtain ⟨l0, hl0, hc0⟩ := start_run self
  obtain ⟨l1, hl1, hc1⟩ :=
    write_byte_run env (mp_hal_i2c_start self) (((addr % 256) <<< 1) ||| 1)
  unfold mp_hal_i2c_read
  cases hack : (mp_hal_i2c_write_byte env (mp_hal_i2c_start self)
      (((addr % 256) <<< 1) ||| 1)).1 with
  | false =>
    obtain ⟨l2, hl2, hc2⟩ :=
      stop_run (mp_hal_i2c_write_byte env (mp_hal_i2c_start self) (((addr % 256) <<< 1) ||| 1)).2
    refine ⟨l0 ++ l1 ++ l2, by simp [hack, er, hl2, hl1, hl0], Or.inr ⟨by simp [hack, er],
      by simp [hack], ?_⟩⟩
    simp [calls_append, hc0, hc1, hc2, hack]
  | true =>
    obtain ⟨l2, vals, h1, h2, h3, h4, h5⟩ := read_loop_run env len []
      (mp_hal_i2c_write_byte env (mp_hal_i2c_start self) (((addr % 256) <<< 1) ||| 1)).2
    obtain ⟨l3, hl3, hc3⟩ := stop_run (read_loop env len []
      (mp_hal_i2c_write_byte env (mp_hal_i2c_start self) (((addr % 256) <<< 1) ||| 1)).2).2.2
    simp only [List.nil_append] at h2
    refine ⟨l0 ++ l1 ++ l2 ++ l3, by simp [hack, h1, hl3, h4, hl1, hl0],
      Or.inl ⟨by simp [hack, h1], by simp [hack, h1, h2, h3], ?_⟩⟩
    simp [calls_append, hc0, hc1, hc3, h5, hack, h1, h2]

theorem sda_low_mem_read_byte_events (d : Nat) (nack : Bool) (bits : List Nat) :
    Ev.sda_low ∈ read_byte_events d nack bits ↔ nack = false := by
  cases nack <;> simp [read_byte_events, read_bit_events, read_bit_head]

/-- C9: `mp_hal_i2c_read` raises the bus error exactly when the address byte is
not acknowledged, and then it has performed start, the address byte and stop
and no read-byte; otherwise it succeeds, the buffer holds exactly `len` bytes,
and the i-th read-byte call returned the byte at buffer position i. -/
theorem read_all_or_nothing (env : Responder) (self : machine_i2c_obj_t) (addr len : Nat) :
    ((mp_hal_i2c_read env self addr len).1 = Outcome.bus_error ↔
      nacked (since self (mp_hal_i2c_read env self addr len).2.2) = true) ∧
    ((mp_hal_i2c_read env self addr len).1 = Outcome.bus_error →
      calls (since self (mp_hal_i2c_read env self addr len).2.2) =
        [Call.start, Call.write_byte ((((addr % 256) <<< 1) ||| 1) % 256) false, Call.stop]) ∧
    ((mp_hal_i2c_read env self addr len).1 ≠ Outcome.bus_error →
      (mp_hal_i2c_read env self addr len).1 = Outcome.ok ∧
      (mp_hal_i2c_read env self addr len).2.1.length = len ∧
      calls (since self (mp_hal_i2c_read env self addr len).2.2) =
        [Call.start, Call.write_byte ((((addr % 256) <<< 1) ||| 1) % 256) true] ++
          List.zipWith Call.read_byte (nack_flags len) (mp_hal_i2c_read env self addr len).2.1 ++
          [Call.stop]) := by
  obtain ⟨l, hl, h⟩ := read_run env self addr len
  rw [since_of_log_eq hl]
  rcases h with ⟨hok, hlen, hc⟩ | ⟨hko, _, hc⟩
  · refine ⟨?_, ?_, ?_⟩
    · rw [hok, nacked, hc]
      have hz : ∀ (fl : List Bool) (vs : List Nat),
          (List.zipWith Call.read_byte fl vs).any is_nack = false := by
        intro fl
        induction fl with
        | nil => intro vs; simp
        | cons f fl ih =>
          intro vs
          cases vs with
          | nil => simp
          | cons v vs => simp [is_nack, ih]
      simp [List.any_append, is_nack, hz]
    · intro hfail
      rw [hok] at hfail
      cases hfail
    · intro _
      exact ⟨hok, hlen, hc⟩
  · refine ⟨?_, ?_, ?_⟩
    · rw [hko, nacked, hc]
      simp [is_nack]
    · intro _
      exact hc
    · intro hne
      exact absurd hko hne

/-! ## Memory write -/

theorem write_loop_append (env : Responder) (a b : List Nat) :
    ∀ self : machine_i2c_obj_t,
      write_loop env (a ++ b) self =
        if (write_loop env a self).1 then write_loop env b (write_loop env a self).2
        else write_loop env a self := by
  induction a with
  | nil => intro self; simp [write_loop]
  | cons d a ih =>
    intro self
    simp only [List.cons_append, write_loop]
    cases h : (mp_hal_i2c_write_byte env self d).1 <;> simp [ih]

theorem write_memaddr_eq_loop (env : Responder) (self : machine_i2c_obj_t)
    (addr memaddr : Nat) :
    write_memaddr env self addr memaddr =
      write_loop env ((addr <<< 1) :: memaddr_bytes memaddr) self := by
  unfold write_memaddr memaddr_bytes
  by_cases hm : memaddr > 0xFF
  · simp only [hm, if_true, write_loop]
  · simp only [hm, if_false, write_loop]
    cases h1 : (mp_hal_i2c_write_byte env self (addr <<< 1)).1 with
    | false => simp
    | true =>
      simp only [Bool.not_true, Bool.false_eq_true, if_false]

/-- The address byte, the memory address and the payload of
`mp_hal_i2c_write_mem` go through one write loop. -/
theorem write_mem_eq_loop (env : Responder) (self : machine_i2c_obj_t)
    (addr memaddr : Nat) (src : List Nat) :
    mp_hal_i2c_write_mem env self addr memaddr src =
      if (write_loop env
          (((addr % 256) <<< 1) :: (memaddr_bytes (memaddr % 65536) ++ src))
          (mp_hal_i2c_start self)).1 then
        (Outcome.ok, mp_hal_i2c_stop (write_loop env
          (((addr % 256) <<< 1) :: (memaddr_bytes (memaddr % 65536) ++ src))
          (mp_hal_i2c_start self)).2)
      else er (write_loop env
          (((addr % 256) <<< 1) :: (memaddr_bytes (memaddr % 65536) ++ src))
          (mp_hal_i2c_start self)).2 := by
  unfold mp_hal_i2c_write_mem
  rw [← List.cons_append, write_loop_append]
  simp only [write_memaddr_eq_loop]
  cases h1 : (write_loop env (((addr % 256) <<< 1) :: memaddr_bytes (memaddr % 65536))
      (mp_hal_i2c_start self)).1 with
  | false => simp [h1]
  | true =>
    simp only [Bool.not_true, Bool.false_eq_true, if_false, if_true]
    cases h2 : (write_loop env src (write_loop env
      (((addr % 256) <<< 1) :: memaddr_bytes (memaddr % 65536)) (mp_hal_i2c_start self)).2).1 <;>
    simp [h2]

/-- What `mp_hal_i2c_write_mem` does on the bus, for any responder. -/
theorem write_mem_run (env : Responder) (self : machine_i2c_obj_t)
    (addr memaddr : Nat) (src : List Nat) :
    ∃ l, (mp_hal_i2c_write_mem env self addr memaddr src).2.log = self.log ++ l ∧
      (((mp_hal_i2c_write_mem env self addr memaddr src).1 = Outcome.ok ∧
          calls l = Call.start ::
            acked (((addr % 256) <<< 1) :: (memaddr_bytes (memaddr % 65536) ++ src)) ++
            [Call.stop]) ∨
       ((mp_hal_i2c_write_mem env self addr memaddr src).1 = Outcome.bus_error ∧
          ∃ pre b post,
            ((addr % 256) <<< 1) :: (memaddr_bytes (memaddr % 65536) ++ src) =
              pre ++ b :: post ∧
            calls l = Call.start :: acked pre ++ [Call.write_byte (b % 256) false, Call.stop])) := by
  obtain ⟨l0, hl0, hc0⟩ := start_run self
  obtain ⟨l1, hl1, h1⟩ := write_loop_run env
    (((addr % 256) <<< 1) :: (memaddr_bytes (memaddr % 65536) ++ src)) (mp_hal_i2c_start self)
  obtain ⟨l2, hl2, hc2⟩ := stop_run (write_loop env
    (((addr % 256) <<< 1) :: (memaddr_bytes (memaddr % 65536) ++ src))
    (mp_hal_i2c_start self)).2
  rw [write_mem_eq_loop]
  refine ⟨l0 ++ l1 ++ l2, ?_, ?_⟩
  · rcases h1 with ⟨hok, _⟩ | ⟨hko, _⟩
    · simp only [hok, if_true]
      simp [hl2, hl1, hl0]
    · simp only [hko, er]
      simp [hl2, hl1, hl0]
  · rcases h1 with ⟨hok, hc1⟩ | ⟨hko, pre, b, post, hd, hc1⟩
    · left
      simp only [hok, if_true]
      refine ⟨trivial, ?_⟩
      simp only [calls_append, hc0, hc1, hc2]
      simp
    · right
      simp only [hko, er]
      refine ⟨by simp, pre, b, post, hd, ?_⟩
      simp only [calls_append, hc0, hc1, hc2]
      simp

theorem memaddr_split (memaddr : Nat) : (memaddr >>> 8) * 256 + (memaddr &&& 0xFF) = memaddr := by
  have h := Nat.and_pow_two_sub_one_eq_mod memaddr 8
  norm_num at h
  rw [h, Nat.shiftRight_eq_div_pow]
  omega

/-- C10: for a sub-address `memaddr` in 0..0xFFFF, when no write-byte of the
transaction is left unacknowledged, `mp_hal_i2c_write_mem` writes between the
address byte and the payload exactly one byte `memaddr` when `memaddr ≤ 0xFF`
and exactly the two bytes `memaddr >> 8`, `memaddr & 0xFF` in that order
otherwise (high byte first: `hi * 256 + lo = memaddr`), then the payload, then
a stop.  For every responder the last engine call of the transaction is a
stop. -/
theorem write_mem_subaddress_width (env : Responder) (self : machine_i2c_obj_t)
    (addr memaddr : Nat) (src : List Nat) (hm : memaddr ≤ 0xFFFF)
    (hack : nacked (since self (mp_hal_i2c_write_mem env self addr memaddr src).2) = false) :
    calls (since self (mp_hal_i2c_write_mem env self addr memaddr src).2) =
      Call.start :: Call.write_byte ((addr % 256) <<< 1 % 256) true ::
        (if memaddr ≤ 0xFF then [Call.write_byte memaddr true]
         else [Call.write_byte (memaddr >>> 8) true, Call.write_byte (memaddr &&& 0xFF) true]) ++
        acked src ++ [Call.stop] ∧
    (memaddr >>> 8) * 256 + (memaddr &&& 0xFF) = memaddr ∧
    (∀ (env' : Responder) (self' : machine_i2c_obj_t) (addr' memaddr' : Nat) (src' : List Nat),
      (calls (since self' (mp_hal_i2c_write_mem env' self' addr' memaddr' src').2)).getLast? =
        some Call.stop) := by
  refine ⟨?_, memaddr_split memaddr, ?_⟩
  · obtain ⟨l, hl, h⟩ := write_mem_run env self addr memaddr src
    rw [since_of_log_eq hl] at hack ⊢
    have hm' : memaddr % 65536 = memaddr := Nat.mod_eq_of_lt (by omega)
    rcases h with ⟨_, hc⟩ | ⟨_, pre, b, post, _, hc⟩
    · rw [hc, hm']
      have hand := Nat.and_pow_two_sub_one_eq_mod memaddr 8
      norm_num at hand
      by_cases h8 : memaddr ≤ 0xFF
      · have h8' : ¬ memaddr > 0xFF := by omega
        have hlt : memaddr % 256 = memaddr := Nat.mod_eq_of_lt (by omega)
        simp [memaddr_bytes, h8, h8', acked, hlt]
      · have h8' : memaddr > 0xFF := by omega
        have hhi : (memaddr >>> 8) % 256 = memaddr >>> 8 := by
          rw [Nat.shiftRight_eq_div_pow]
          omega
        simp [memaddr_bytes, h8, h8', acked, hhi, hand]
    · exfalso
      rw [nacked, hc] at hack
      simp [is_nack] at hack
  · intro env' self' addr' memaddr' src'
    obtain ⟨l, hl, h⟩ := write_mem_run env' self' addr' memaddr' src'
    rw [since_of_log_eq hl]
    rcases h with ⟨_, hc⟩ | ⟨_, pre, b, post, _, hc⟩
    · rw [hc, List.getLast?_append]
      simp
    · rw [hc, show [Call.write_byte (b % 256) false, Call.stop] =
        [Call.write_byte (b % 256) false] ++ [Call.stop] from rfl,
        ← List.append_assoc, List.getLast?_append]
      simp

set_option maxRecDepth 100000 in
/-- C10 at the width boundary: sub-address 0x00FF goes out as the single byte
0xFF, sub-address 0x0100 as the two bytes 0x01, 0x00. -/
theorem write_mem_subaddress_width_witness :
    calls (since idle_bus (mp_hal_i2c_write_mem always_ack idle_bus 0x50 0x00FF [0xAB]).2) =
      [Call.start, Call.write_byte 0xA0 true, Call.write_byte 0xFF true,
       Call.write_byte 0xAB true, Call.stop] ∧
    calls (since idle_bus (mp_hal_i2c_write_mem always_ack idle_bus 0x50 0x0100 [0xAB]).2) =
      [Call.start, Call.write_byte 0xA0 true, Call.write_byte 0x01 true,
       Call.write_byte 0x00 true, Call.write_byte 0xAB true, Call.stop] :=
  ⟨(write_mem_subaddress_width always_ack idle_bus 0x50 0x00FF [0xAB] (by decide)
      (by decide)).1,
   (write_mem_subaddress_width always_ack idle_bus 0x50 0x0100 [0xAB] (by decide)
      (by decide)).1⟩

/-! ## Bus scan -/

theorem probe_byte_eq (a : Nat) : (a <<< 1) ||| 1 = 2 * a + 1 := by
  rw [Nat.shiftLeft_eq, Nat.mul_comm]
  have h := Nat.mul_add_lt_is_or (show 1 < 2 ^ 1 by decide) a
  rw [← h]

/-- One probe: start, write-byte of `(addr << 1) | 1`, stop; the address is
appended exactly when the write-byte returned true. -/
theorem scan_probe_run (env : Responder) (list : List Nat) (self : machine_i2c_obj_t)
    (a : Nat) (ha : a < 128) :
    ∃ l ack, (scan_probe env (list, self) a).2.log = self.log ++ l ∧
      calls l = probe_calls (a, ack) ∧
      (scan_probe env (list, self) a).1 = if ack then list ++ [a] else list := by
  obtain ⟨l0, hl0, hc0⟩ := start_run self
  obtain ⟨l1, hl1, hc1⟩ :=
    write_byte_run env (mp_hal_i2c_start self) ((a <<< 1) ||| 1)
  obtain ⟨l2, hl2, hc2⟩ :=
    stop_run (mp_hal_i2c_write_byte env (mp_hal_i2c_start self) ((a <<< 1) ||| 1)).2
  have hb : ((a <<< 1) ||| 1) % 256 = (a <<< 1) ||| 1 := by
    rw [probe_byte_eq]
    omega
  refine ⟨l0 ++ l1 ++ l2,
    (mp_hal_i2c_write_byte env (mp_hal_i2c_start self) ((a <<< 1) ||| 1)).1, ?_, ?_, ?_⟩
  · unfold scan_probe
    cases h : (mp_hal_i2c_write_byte env (mp_hal_i2c_start self) ((a <<< 1) ||| 1)).1 <;>
    simp [h, hl2, hl1, hl0]
  · simp [calls_append, hc0, hc1, hc2, hb, probe_calls]
  · unfold scan_probe
    cases h : (mp_hal_i2c_write_byte env (mp_hal_i2c_start self) ((a <<< 1) ||| 1)).1 <;>
    simp [h]

/-- The bit-bang loop over any list of 7-bit addresses. -/
theorem scan_loop_run (env : Responder) (addrs : List Nat) :
    ∀ (list : List Nat) (self : machine_i2c_obj_t), (∀ a ∈ addrs, a < 128) →
      ∃ l acks, acks.length = addrs.length ∧
        (addrs.foldl (scan_probe env) (list, self)).2.log = self.log ++ l ∧
        calls l = (addrs.zip acks).flatMap probe_calls ∧
        (addrs.foldl (scan_probe env) (list, self)).1 =
          list ++ ((addrs.zip acks).filter fun p => p.2).map fun p => p.1 := by
  induction addrs with
  | nil => intro list self _; exact ⟨[], [], rfl, by simp, by simp [calls], by simp⟩
  | cons a addrs ih =>
    intro list self hlt
    obtain ⟨l1, ack, hl1, hc1, hr1⟩ :=
      scan_probe_run env list self a (hlt a (List.mem_cons_self a addrs))
    obtain ⟨l2, acks, hlen, hl2, hc2, hr2⟩ :=
      ih (scan_probe env (list, self) a).1 (scan_probe env (list, self) a).2
        (fun b hb => hlt b (List.mem_cons_of_mem a hb))
    refine ⟨l1 ++ l2, ack :: acks, by simp [hlen], ?_, ?_, ?_⟩
    · simp [List.foldl_cons, hl2, hl1]
    · simp [calls_append, hc1, hc2]
    · rw [List.foldl_cons]
      simp only [Prod.mk.eta] at hr2
      rw [hr2, hr1]
      cases ack <;> simp

theorem range_lt_128 : ∀ a ∈ List.range' 0x08 (0x78 - 0x08), a < 128 := by
  intro a ha
  rw [List.mem_range'_1] at ha
  omega

/-- What the bit-bang branch of `machine_i2c_scan` does on the bus, for any
responder. -/
theorem scan_run (hw_ping : Nat → Bool) (env : Responder) (self : machine_i2c_obj_t)
    (hbus : 2 ≤ self.bus_id) :
    ∃ l acks, acks.length = 0x70 ∧
      (machine_i2c_scan hw_ping env self).2.log = self.log ++ l ∧
      calls l = ((List.range' 0x08 0x70).zip acks).flatMap probe_calls ∧
      (machine_i2c_scan hw_ping env self).1 =
        (((List.range' 0x08 0x70).zip acks).filter fun p => p.2).map fun p => p.1 := by
  obtain ⟨l, acks, hlen, hl, hc, hr⟩ :=
    scan_loop_run env (List.range' 0x08 (0x78 - 0x08)) [] self range_lt_128
  have hb : ¬ self.bus_id < 2 := by omega
  unfold machine_i2c_scan
  simp only [hb, if_false]
  exact ⟨l, acks, by simpa using hlen, hl, hc, by simpa using hr⟩

/-! ## The simulated bus -/

theorem listen_append (a b : List Ev) : listen (a ++ b) = b.foldl Listener.step (listen a) := by
  simp [listen, List.foldl_append]

theorem listen_start_events (st : Listener) (d : Nat) :
    [Ev.atomic_begin, Ev.sda_release, Ev.delay d, Ev.scl_release, Ev.delay d, Ev.sda_low,
      Ev.delay d, Ev.atomic_end, Ev.ret Call.start].foldl Listener.step st =
      { scl := true, sda := false, bits := [] } := by
  rcases st with ⟨scl, sda, bits⟩
  cases scl <;> cases sda <;> simp [Listener.step]

theorem listen_write_bit_events (st : Listener) (d val i : Nat) :
    (write_bit_events d val i).foldl Listener.step st =
      { scl := true, sda := decide ((val >>> i) &&& 1 ≠ 0),
        bits := st.bits ++ [decide ((val >>> i) &&& 1 ≠ 0)] } := by
  rcases st with ⟨scl, sda, bits⟩
  unfold write_bit_events
  by_cases h : (val >>> i) &&& 1 ≠ 0
  · rw [if_pos h, decide_eq_true h]
    simp [Listener.step]
  · rw [if_neg h, decide_eq_false h]
    simp [Listener.step]

theorem listen_write_byte_head (st : Listener) (d val : Nat) :
    ((write_byte_head d val).foldl Listener.step st).bits =
      st.bits ++ [decide ((val >>> 7) &&& 1 ≠ 0), decide ((val >>> 6) &&& 1 ≠ 0),
        decide ((val >>> 5) &&& 1 ≠ 0), decide ((val >>> 4) &&& 1 ≠ 0),
        decide ((val >>> 3) &&& 1 ≠ 0), decide ((val >>> 2) &&& 1 ≠ 0),
        decide ((val >>> 1) &&& 1 ≠ 0), decide ((val >>> 0) &&& 1 ≠ 0), true] := by
  unfold write_byte_head
  simp only [List.foldl_cons, List.foldl_append, listen_write_bit_events, List.foldl_nil]
  simp [Listener.step]

set_option maxRecDepth 100000 in
theorem address_bits_value : ∀ val, val < 256 →
    bits_value [decide ((val >>> 7) &&& 1 ≠ 0), decide ((val >>> 6) &&& 1 ≠ 0),
        decide ((val >>> 5) &&& 1 ≠ 0), decide ((val >>> 4) &&& 1 ≠ 0),
        decide ((val >>> 3) &&& 1 ≠ 0), decide ((val >>> 2) &&& 1 ≠ 0),
        decide ((val >>> 1) &&& 1 ≠ 0)] = val / 2 := by
  decide

/-- On the simulated bus, the address byte written right after a start
condition is acknowledged exactly by the devices present. -/
theorem device_bus_ack (addrs : List Nat) (self : machine_i2c_obj_t) (val : Nat) :
    (mp_hal_i2c_write_byte (device_bus addrs) (mp_hal_i2c_start self) val).1 =
      decide (val % 256 / 2 ∈ addrs) := by
  rw [write_byte_eq, start_eq]
  simp only [device_bus]
  rw [listen_append, listen_append, listen_start_events, listen_write_byte_head]
  have hv := address_bits_value (val % 256) (Nat.mod_lt _ (by decide))
  simp only [List.nil_append, List.length_cons, List.length_nil, List.take_succ_cons,
    List.take_zero]
  rw [hv]
  by_cases h : val % 256 / 2 ∈ addrs <;> simp [h]

theorem scan_probe_device (addrs list : List Nat) (self : machine_i2c_obj_t) (a : Nat)
    (ha : a < 128) :
    (scan_probe (device_bus addrs) (list, self) a).1 =
      if a ∈ addrs then list ++ [a] else list := by
  have hb : ((a <<< 1) ||| 1) % 256 / 2 = a := by
    rw [probe_byte_eq]
    omega
  unfold scan_probe
  simp only [device_bus_ack, hb]
  by_cases h : a ∈ addrs <;> simp [h]

theorem scan_loop_device (addrs : List Nat) (probes : List Nat) :
    ∀ (list : List Nat) (self : machine_i2c_obj_t), (∀ a ∈ probes, a < 128) →
      (probes.foldl (scan_probe (device_bus addrs)) (list, self)).1 =
        list ++ probes.filter fun a => decide (a ∈ addrs) := by
  induction probes with
  | nil => intro list self _; simp
  | cons a probes ih =>
    intro list self hlt
    have h1 := scan_probe_device addrs list self a (hlt a (List.mem_cons_self a probes))
    have h2 := ih (scan_probe (device_bus addrs) (list, self) a).1
      (scan_probe (device_bus addrs) (list, self) a).2
      (fun b hb => hlt b (List.mem_cons_of_mem a hb))
    rw [List.foldl_cons]
    simp only [Prod.mk.eta] at h2
    rw [h2, h1]
    by_cases h : a ∈ addrs <;> simp [h, List.filter_cons]

/-- The bit-bang scan of a simulated bus returns the present devices among the
probed addresses. -/
theorem scan_device_bus (hw_ping : Nat → Bool) (addrs : List Nat) (self : machine_i2c_obj_t)
    (hbus : 2 ≤ self.bus_id) :
    (machine_i2c_scan hw_ping (device_bus addrs) self).1 =
      (List.range' 0x08 0x70).filter fun a => decide (a ∈ addrs) := by
  have hb : ¬ self.bus_id < 2 := by omega
  unfold machine_i2c_scan
  simp only [hb, if_false]
  have h := scan_loop_device addrs (List.range' 0x08 (0x78 - 0x08)) [] self range_lt_128
  simpa using h

theorem probed_of_probes (ps : List (Nat × Bool)) :
    ((ps.flatMap probe_calls).filterMap fun c => match c with
      | Call.write_byte v _ => some (v >>> 1)
      | _ => none) = ps.map fun p => p.1 := by
  induction ps with
  | nil => rfl
  | cons p ps ih =>
    rw [List.flatMap_cons, List.filterMap_append, ih]
    have hb : ((p.1 <<< 1) ||| 1) >>> 1 = p.1 := by
      rw [probe_byte_eq, Nat.shiftRight_eq_div_pow]
      omega
    simp [probe_calls, hb]

theorem acked_of_probes (ps : List (Nat × Bool)) :
    ((ps.flatMap probe_calls).filterMap fun c => match c with
      | Call.write_byte v true => some (v >>> 1)
      | _ => none) = (ps.filter fun p => p.2).map fun p => p.1 := by
  induction ps with
  | nil => rfl
  | cons p ps ih =>
    rw [List.flatMap_cons, List.filterMap_append, ih]
    rcases p with ⟨a, ack⟩
    have hb : ((a <<< 1) ||| 1) >>> 1 = a := by
      rw [probe_byte_eq, Nat.shiftRight_eq_div_pow]
      omega
    cases ack <;> simp [probe_calls, List.filter_cons, hb]

/-- The addresses probed and the addresses returned by the bit-bang scan. -/
theorem scan_probed (hw_ping : Nat → Bool) (env : Responder) (self : machine_i2c_obj_t)
    (hbus : 2 ≤ self.bus_id) :
    probed_addresses (since self (machine_i2c_scan hw_ping env self).2) =
      List.range' 0x08 0x70 ∧
    (machine_i2c_scan hw_ping env self).1 =
      acked_addresses (since self (machine_i2c_scan hw_ping env self).2) ∧
    List.Sublist (machine_i2c_scan hw_ping env self).1 (List.range' 0x08 0x70) := by
  obtain ⟨l, acks, hlen, hl, hc, hr⟩ := scan_run hw_ping env self hbus
  have hfst : ((List.range' 0x08 0x70).zip acks).map (fun p => p.1) = List.range' 0x08 0x70 := by
    apply List.map_fst_zip
    simp [hlen]
  rw [since_of_log_eq hl]
  refine ⟨?_, ?_, ?_⟩
  · rw [probed_addresses, hc, probed_of_probes, hfst]
  · rw [acked_addresses, hc, acked_of_probes, hr]
  · rw [hr]
    have h1 : List.Sublist
        ((((List.range' 0x08 0x70).zip acks).filter fun p => p.2).map fun p => p.1)
        (((List.range' 0x08 0x70).zip acks).map fun p => p.1) :=
      List.Sublist.map _ (List.filter_sublist _)
    rwa [hfst] at h1

/-- C3 (as the code has it): on the bit-bang path, for every responder, the
scan probes every address from 0x08 to 0x77 exactly once, in ascending order,
and no other address; address 0x78 is never probed and never returned. -/
theorem scan_probes_0x08_to_0x77 (hw_ping : Nat → Bool) (env : Responder)
    (self : machine_i2c_obj_t) (hbus : 2 ≤ self.bus_id) :
    probed_addresses (since self (machine_i2c_scan hw_ping env self).2) =
      List.range' 0x08 0x70 ∧
    (∀ a, List.count a (probed_addresses (since self (machine_i2c_scan hw_ping env self).2)) =
      if 0x08 ≤ a ∧ a ≤ 0x77 then 1 else 0) ∧
    List.Pairwise (fun a b => a < b)
      (probed_addresses (since self (machine_i2c_scan hw_ping env self).2)) ∧
    0x78 ∉ probed_addresses (since self (machine_i2c_scan hw_ping env self).2) ∧
    0x78 ∉ (machine_i2c_scan hw_ping env self).1 := by
  obtain ⟨hp, _, hsub⟩ := scan_probed hw_ping env self hbus
  have h78 : 0x78 ∉ List.range' 0x08 0x70 := by decide
  rw [hp]
  refine ⟨rfl, ?_, List.pairwise_lt_range' 0x08 0x70, h78, fun h => h78 (hsub.subset h)⟩
  intro a
  have hnd : (List.range' 0x08 0x70).Nodup := List.nodup_range' 0x08 0x70
  by_cases ha : 0x08 ≤ a ∧ a ≤ 0x77
  · rw [if_pos ha]
    exact List.count_eq_one_of_mem hnd (by rw [List.mem_range'_1]; omega)
  · rw [if_neg ha]
    exact List.count_eq_zero_of_not_mem (by rw [List.mem_range'_1]; omega)

/-- C3 at a concrete input: the scan of an idle bit-bang bus. -/
theorem scan_probes_0x08_to_0x77_witness :
    probed_addresses (since idle_bus (machine_i2c_scan (fun _ => false) always_ack idle_bus).2) =
      List.range' 0x08 0x70 :=
  (scan_probes_0x08_to_0x77 (fun _ => false) always_ack idle_bus (by decide)).1

/-- C3 as stated fails: on a bit-bang bus where every probe is acknowledged,
address 0x78 is neither probed nor returned. -/
theorem scan_skips_0x78 :
    idle_bus.bus_id ≥ 2 ∧
    0x78 ∉ probed_addresses
      (since idle_bus (machine_i2c_scan (fun _ => false) always_ack idle_bus).2) ∧
    0x78 ∉ (machine_i2c_scan (fun _ => false) always_ack idle_bus).1 := by
  obtain ⟨hp, _, hsub⟩ := scan_probed (fun _ => false) always_ack idle_bus (by decide)
  have h78 : 0x78 ∉ List.range' 0x08 0x70 := by decide
  refine ⟨by decide, ?_, fun h => h78 (hsub.subset h)⟩
  rw [hp]
  exact h78

/-- C4 (what the code does): each probe of the bit-bang scan for an address `a`
is start, one write-byte of `(a << 1) | 1 = 2 * a + 1`, stop, and the address
is reported exactly when that write-byte was acknowledged; the read/write bit
(bit 0) of every byte written is 1, not 0. -/
theorem scan_probe_writes_read_address (hw_ping : Nat → Bool) (env : Responder)
    (self : machine_i2c_obj_t) (hbus : 2 ≤ self.bus_id) :
    ∃ acks : List Bool, acks.length = 0x70 ∧
      calls (since self (machine_i2c_scan hw_ping env self).2) =
        ((List.range' 0x08 0x70).zip acks).flatMap
          (fun p => [Call.start, Call.write_byte (2 * p.1 + 1) p.2, Call.stop]) ∧
      (machine_i2c_scan hw_ping env self).1 =
        (((List.range' 0x08 0x70).zip acks).filter fun p => p.2).map (fun p => p.1) ∧
      ∀ v ack, Call.write_byte v ack ∈
        calls (since self (machine_i2c_scan hw_ping env self).2) → v % 2 = 1 := by
  obtain ⟨l, acks, hlen, hl, hc, hr⟩ := scan_run hw_ping env self hbus
  have hpc : probe_calls = fun p : Nat × Bool =>
      [Call.start, Call.write_byte (2 * p.1 + 1) p.2, Call.stop] := by
    funext p
    simp [probe_calls, probe_byte_eq]
  rw [since_of_log_eq hl, hc, hpc]
  refine ⟨acks, hlen, rfl, hr, ?_⟩
  intro v ack hmem
  rw [List.mem_flatMap] at hmem
  obtain ⟨p, _, hp⟩ := hmem
  simp only [List.mem_cons, Call.write_byte.injEq, List.mem_singleton, reduceCtorEq,
    false_or, or_false, List.not_mem_nil] at hp
  omega

/-- C4 at a concrete input: on an idle bit-bang bus the first probe, for address
0x08, writes the byte 0x11 (address with the read bit), not 0x10. -/
theorem scan_probe_writes_read_address_witness :
    ∃ ack, (calls (since idle_bus
        (machine_i2c_scan (fun _ => false) always_ack idle_bus).2)).take 3 =
      [Call.start, Call.write_byte 0x11 ack, Call.stop] := by
  obtain ⟨acks, hlen, hc, _, _⟩ :=
    scan_probe_writes_read_address (fun _ => false) always_ack idle_bus (by decide)
  cases acks with
  | nil => simp at hlen
  | cons ack acks =>
    refine ⟨ack, ?_⟩
    rw [hc, show List.range' 0x08 0x70 = 0x08 :: List.range' 0x09 0x6f from rfl]
    simp

/-- C5: on the bit-bang path, for every responder, the list the scan returns is
strictly ascending, every element is at most 127, and it is the sequence of
probed addresses, in probe order, whose write-byte was acknowledged; on a bus
where only the devices 0x10 and 0x50 are present it is `[0x10, 0x50]`. -/
theorem scan_result_ascending_acked (hw_ping : Nat → Bool) (env : Responder)
    (self : machine_i2c_obj_t) (hbus : 2 ≤ self.bus_id) :
    List.Pairwise (fun a b => a < b) (machine_i2c_scan hw_ping env self).1 ∧
    (∀ a ∈ (machine_i2c_scan hw_ping env self).1, a ≤ 127) ∧
    (machine_i2c_scan hw_ping env self).1 =
      acked_addresses (since self (machine_i2c_scan hw_ping env self).2) ∧
    List.Sublist (machine_i2c_scan hw_ping env self).1
      (probed_addresses (since self (machine_i2c_scan hw_ping env self).2)) ∧
    (machine_i2c_scan hw_ping (device_bus [0x10, 0x50]) self).1 = [0x10, 0x50] := by
  obtain ⟨hp, hr, hsub⟩ := scan_probed hw_ping env self hbus
  refine ⟨(List.pairwise_lt_range' 0x08 0x70).sublist hsub, ?_, hr, ?_, ?_⟩
  · intro a ha
    have := hsub.subset ha
    rw [List.mem_range'_1] at this
    omega
  · rw [hp]
    exact hsub
  · rw [scan_device_bus hw_ping [0x10, 0x50] self hbus]
    decide

/-- C5 at a concrete input: the scan of an idle bit-bang bus where every probe
is acknowledged. -/
theorem scan_result_ascending_acked_witness :
    List.Pairwise (fun a b => a < b) (machine_i2c_scan (fun _ => false) always_ack idle_bus).1 ∧
    (machine_i2c_scan (fun _ => false) (device_bus [0x10, 0x50]) idle_bus).1 = [0x10, 0x50] :=
  ⟨(scan_result_ascending_acked (fun _ => false) always_ack idle_bus (by decide)).1,
   (scan_result_ascending_acked (fun _ => false) always_ack idle_bus (by decide)).2.2.2.2⟩

/-! ## Initialisation -/

/-- The half-period `mp_hal_i2c_init` stores, for a positive baud rate. -/
theorem init_us_delay (self : machine_i2c_obj_t) (hb : 0 < self.baudrate) :
    mp_hal_i2c_init self =
      some { self with
        us_delay := if 500000 / self.baudrate = 0 then 1 else 500000 / self.baudrate,
        scl := 1, sda := 1 } := by
  have h0 : self.baudrate ≠ 0 := by omega
  have hq : 500000 / self.baudrate ≤ 500000 := Nat.div_le_self _ _
  have hmod : 500000 / self.baudrate % 2 ^ 32 = 500000 / self.baudrate :=
    Nat.mod_eq_of_lt (by omega)
  simp only [mp_hal_i2c_init, h0, if_false, hmod]

/-- C1 (as the code has it): for every baud rate `b > 0`, `mp_hal_i2c_init`
sets `us_delay` to `max(1, floor(500000 / b))`, the quotient of the integer
division; a baud rate of 100000 gives 5. -/
theorem init_delay_is_floor (self : machine_i2c_obj_t) (hb : 0 < self.baudrate) :
    ∃ self', mp_hal_i2c_init self = some self' ∧
      self'.us_delay = max 1 (500000 / self.baudrate) ∧
      (self.baudrate = 100000 → self'.us_delay = 5) := by
  refine ⟨_, init_us_delay self hb, ?_, ?_⟩
  · show (if 500000 / self.baudrate = 0 then 1 else 500000 / self.baudrate) = _
    generalize 500000 / self.baudrate = q
    split <;> omega
  · intro h
    show (if 500000 / self.baudrate = 0 then 1 else 500000 / self.baudrate) = _
    rw [h]
    rfl

/-- C1 at a concrete input: 100 kHz gives a half-period of 5. -/
theorem init_delay_is_floor_witness :
    ∃ self', mp_hal_i2c_init { idle_bus with baudrate := 100000 } = some self' ∧
      self'.us_delay = max 1 (500000 / 100000) ∧
      ((100000 : Nat) = 100000 → self'.us_delay = 5) :=
  init_delay_is_floor { idle_bus with baudrate := 100000 } (by decide)

/-- C1 as stated fails: at 300 kHz the code stores 1, while 500000 / 300000
rounded to the nearest integer is 2. -/
theorem init_delay_not_rounded :
    ∃ self', mp_hal_i2c_init { idle_bus with baudrate := 300000 } = some self' ∧
      self'.us_delay = 1 ∧
      max 1 (round ((500000 : ℚ) / 300000)) = 2 := by
  refine ⟨_, init_us_delay { idle_bus with baudrate := 300000 } (by decide), rfl, ?_⟩
  have hr : round ((500000 : ℚ) / 300000) = 2 := by
    rw [round_eq, Int.floor_eq_iff]
    constructor <;> norm_num
  rw [hr]
  rfl

/-- C2: for every baud rate `b > 0` (so for every `uint32_t` value
`0 < b < 2^32`), `mp_hal_i2c_init` returns and the half-period it stores is at
least 1; for `b > 500000`, where the integer quotient `500000 / b` is 0, it
stores exactly 1. -/
theorem init_delay_at_least_one (self : machine_i2c_obj_t) (hb : 0 < self.baudrate) :
    ∃ self', mp_hal_i2c_init self = some self' ∧ 1 ≤ self'.us_delay ∧
      (500000 < self.baudrate → 500000 / self.baudrate = 0 ∧ self'.us_delay = 1) := by
  refine ⟨_, init_us_delay self hb, ?_, ?_⟩
  · show 1 ≤ (if 500000 / self.baudrate = 0 then 1 else 500000 / self.baudrate)
    generalize 500000 / self.baudrate = q
    split <;> omega
  · intro h
    have hq : 500000 / self.baudrate = 0 := Nat.div_eq_of_lt h
    refine ⟨hq, ?_⟩
    show (if 500000 / self.baudrate = 0 then 1 else 500000 / self.baudrate) = 1
    rw [if_pos hq]

/-- C2 at a concrete input: 600 kHz, where the quotient is 0, stores 1. -/
theorem init_delay_at_least_one_witness :
    ∃ self', mp_hal_i2c_init { idle_bus with baudrate := 600000 } = some self' ∧
      1 ≤ self'.us_delay ∧
      ((500000 : Nat) < 600000 → 500000 / 600000 = 0 ∧ self'.us_delay = 1) :=
  init_delay_at_least_one { idle_bus with baudrate := 600000 } (by decide)

/-! ## Memory read -/

/-- What `mp_hal_i2c_read_mem` does on the bus, for any responder. -/
theorem read_mem_run (env : Responder) (self : machine_i2c_obj_t) (addr memaddr len : Nat) :
    ∃ l, (mp_hal_i2c_read_mem env self addr memaddr len).2.2.log = self.log ++ l ∧
      (((mp_hal_i2c_read_mem env self addr memaddr len).1 = Outcome.ok ∧
          (mp_hal_i2c_read_mem env self addr memaddr len).2.1.length = len ∧
          calls l = Call.start ::
            acked (((addr % 256) <<< 1) :: memaddr_bytes (memaddr % 65536)) ++
            [Call.start, Call.write_byte ((((addr % 256) <<< 1) ||| 1) % 256) true] ++
            List.zipWith Call.read_byte (nack_flags len)
              (mp_hal_i2c_read_mem env self addr memaddr len).2.1 ++
            [Call.stop]) ∨
       ((mp_hal_i2c_read_mem env self addr memaddr len).1 = Outcome.bus_error ∧
          ((∃ pre b post,
              ((addr % 256) <<< 1) :: memaddr_bytes (memaddr % 65536) = pre ++ b :: post ∧
              calls l = Call.start :: acked pre ++ [Call.write_byte (b % 256) false, Call.stop]) ∨
           calls l = Call.start ::
             acked (((addr % 256) <<< 1) :: memaddr_bytes (memaddr % 65536)) ++
             [Call.start, Call.write_byte ((((addr % 256) <<< 1) ||| 1) % 256) false,
              Call.stop]))) := by
  obtain ⟨l0, hl0, hc0⟩ := start_run self
  obtain ⟨l1, hl1, h1⟩ := write_loop_run env
    (((addr % 256) <<< 1) :: memaddr_bytes (memaddr % 65536)) (mp_hal_i2c_start self)
  unfold mp_hal_i2c_read_mem
  simp only [write_memaddr_eq_loop]
  rcases h1 with ⟨hok, hc1⟩ | ⟨hko, pre, b, post, hd, hc1⟩
  · obtain ⟨l2, hl2, h2⟩ := read_run env (write_loop env
      (((addr % 256) <<< 1) :: memaddr_bytes (memaddr % 65536)) (mp_hal_i2c_start self)).2
      (addr % 256) len
    simp only [Nat.mod_mod] at h2
    simp only [hok, Bool.not_true, Bool.false_eq_true, if_false]
    refine ⟨l0 ++ l1 ++ l2, by simp [hl2, hl1, hl0], ?_⟩
    rcases h2 with ⟨rok, rlen, rc⟩ | ⟨rko, _, rc⟩
    · left
      refine ⟨rok, rlen, ?_⟩
      simp only [calls_append, hc0, hc1, rc]
      simp
    · right
      refine ⟨rko, Or.inr ?_⟩
      simp only [calls_append, hc0, hc1, rc]
      simp
  · obtain ⟨l2, hl2, hc2⟩ := stop_run (write_loop env
      (((addr % 256) <<< 1) :: memaddr_bytes (memaddr % 65536)) (mp_hal_i2c_start self)).2
    simp only [hko, Bool.not_false, if_true, er]
    refine ⟨l0 ++ l1 ++ l2, by simp [hl2, hl1, hl0], Or.inr ⟨trivial, Or.inl ⟨pre, b, post, hd, ?_⟩⟩⟩
    simp only [calls_append, hc0, hc1, hc2]
    simp

theorem count_start_acked (bytes : List Nat) : (acked bytes).count Call.start = 0 := by
  induction bytes with
  | nil => rfl
  | cons b bytes ih => simpa [acked, List.count_cons] using ih

theorem count_stop_acked (bytes : List Nat) : (acked bytes).count Call.stop = 0 := by
  induction bytes with
  | nil => rfl
  | cons b bytes ih => simpa [acked, List.count_cons] using ih

theorem count_start_read_bytes (flags : List Bool) :
    ∀ vals : List Nat, (List.zipWith Call.read_byte flags vals).count Call.start = 0 := by
  induction flags with
  | nil => intro vals; simp
  | cons f flags ih =>
    intro vals
    cases vals with
    | nil => simp
    | cons v vals => simpa [List.count_cons] using ih vals

theorem count_stop_read_bytes (flags : List Bool) :
    ∀ vals : List Nat, (List.zipWith Call.read_byte flags vals).count Call.stop = 0 := by
  induction flags with
  | nil => intro vals; simp
  | cons f flags ih =>
    intro vals
    cases vals with
    | nil => simp
    | cons v vals => simpa [List.count_cons] using ih vals

/-- C11: when no write-byte of the transaction is left unacknowledged,
`mp_hal_i2c_read_mem` performs exactly: start, write-byte of the address with
the write bit, the memory-address byte or bytes chosen by the same width rule
as `mp_hal_i2c_write_mem`, a second (repeated) start, write-byte of the address
with the read bit, `len` read-bytes of which only the last generates NACK, and
stop: two starts, one stop, and no stop before the second start. -/
theorem read_mem_repeated_start (env : Responder) (self : machine_i2c_obj_t)
    (addr memaddr len : Nat)
    (hack : nacked (since self (mp_hal_i2c_read_mem env self addr memaddr len).2.2) = false) :
    calls (since self (mp_hal_i2c_read_mem env self addr memaddr len).2.2) =
      (Call.start :: acked (((addr % 256) <<< 1) :: memaddr_bytes (memaddr % 65536))) ++
      ([Call.start, Call.write_byte ((((addr % 256) <<< 1) ||| 1) % 256) true] ++
        List.zipWith Call.read_byte (nack_flags len)
          (mp_hal_i2c_read_mem env self addr memaddr len).2.1 ++
        [Call.stop]) ∧
    (mp_hal_i2c_read_mem env self addr memaddr len).2.1.length = len ∧
    (calls (since self (mp_hal_i2c_read_mem env self addr memaddr len).2.2)).count Call.start = 2 ∧
    (calls (since self (mp_hal_i2c_read_mem env self addr memaddr len).2.2)).count Call.stop = 1 ∧
    Call.stop ∉ Call.start :: acked (((addr % 256) <<< 1) :: memaddr_bytes (memaddr % 65536)) ∧
    (mp_hal_i2c_read_mem env self addr memaddr len).1 = Outcome.ok := by
  obtain ⟨l, hl, h⟩ := read_mem_run env self addr memaddr len
  rw [since_of_log_eq hl] at hack ⊢
  rcases h with ⟨hok, hlen, hc⟩ | ⟨_, ⟨pre, b, post, _, hc⟩ | hc⟩
  · have hc' : calls l =
        (Call.start :: acked (((addr % 256) <<< 1) :: memaddr_bytes (memaddr % 65536))) ++
        ([Call.start, Call.write_byte ((((addr % 256) <<< 1) ||| 1) % 256) true] ++
          List.zipWith Call.read_byte (nack_flags len)
            (mp_hal_i2c_read_mem env self addr memaddr len).2.1 ++
          [Call.stop]) := by
      rw [hc]
      simp
    refine ⟨hc', hlen, ?_, ?_, ?_, hok⟩
    · rw [hc']
      simp [List.count_cons, List.count_append, count_start_acked, count_start_read_bytes]
    · rw [hc']
      simp [List.count_cons, List.count_append, count_stop_acked, count_stop_read_bytes]
    · intro hmem
      have := List.count_pos_iff.mpr hmem
      simp [List.count_cons, count_stop_acked] at this
  · exfalso
    rw [nacked, hc] at hack
    simp [is_nack] at hack
  · exfalso
    rw [nacked, hc] at hack
    simp [is_nack, List.any_append] at hack

set_option maxRecDepth 100000 in
/-- C11 at a concrete input: two bytes read from memory address 0x0100 of
device 0x50 on a bus that holds the data line low. -/
theorem read_mem_repeated_start_witness :
    calls (since idle_bus (mp_hal_i2c_read_mem always_ack idle_bus 0x50 0x0100 2).2.2) =
      [Call.start, Call.write_byte 0xA0 true, Call.write_byte 0x01 true,
       Call.write_byte 0x00 true, Call.start, Call.write_byte 0xA1 true,
       Call.read_byte false 0, Call.read_byte true 0, Call.stop] :=
  (read_mem_repeated_start always_ack idle_bus 0x50 0x0100 2 (by decide)).1

/-! ## Write-byte on the lines -/

theorem pin_events_append (a b : List Ev) : pin_events (a ++ b) = pin_events a ++ pin_events b := by
  simp [pin_events]

theorem clock_events_append (a b : List Ev) :
    clock_events (a ++ b) = clock_events a ++ clock_events b := by
  simp [clock_events]

theorem samples_append (a b : List Ev) : samples (a ++ b) = samples a ++ samples b := by
  simp [samples]

theorem pin_events_write_bit (d val i : Nat) :
    pin_events (write_bit_events d val i) =
      [Ev.scl_low, data_bit_event val i, Ev.scl_release] := by
  unfold write_bit_events data_bit_event
  by_cases h : (val >>> i) &&& 1 ≠ 0
  · rw [if_pos h]; simp [pin_events]
  · rw [if_neg h]; simp [pin_events]

theorem clock_events_write_bit (d val i : Nat) :
    clock_events (write_bit_events d val i) = [Ev.scl_low, Ev.scl_release] := by
  unfold write_bit_events
  by_cases h : (val >>> i) &&& 1 ≠ 0
  · rw [if_pos h]; simp [clock_events]
  · rw [if_neg h]; simp [clock_events]

theorem samples_write_bit (d val i : Nat) : samples (write_bit_events d val i) = [] := by
  unfold write_bit_events
  by_cases h : (val >>> i) &&& 1 ≠ 0
  · rw [if_pos h]; simp [samples]
  · rw [if_neg h]; simp [samples]

theorem pin_events_write_byte_head (d val : Nat) :
    pin_events (write_byte_head d val) =
      [Ev.scl_low, data_bit_event val 7, Ev.scl_release,
       Ev.scl_low, data_bit_event val 6, Ev.scl_release,
       Ev.scl_low, data_bit_event val 5, Ev.scl_release,
       Ev.scl_low, data_bit_event val 4, Ev.scl_release,
       Ev.scl_low, data_bit_event val 3, Ev.scl_release,
       Ev.scl_low, data_bit_event val 2, Ev.scl_release,
       Ev.scl_low, data_bit_event val 1, Ev.scl_release,
       Ev.scl_low, data_bit_event val 0, Ev.scl_release,
       Ev.scl_low, Ev.sda_release, Ev.scl_release] := by
  unfold write_byte_head
  rw [show ∀ (e : Ev) (l : List Ev), e :: l = [e] ++ l from fun _ _ => rfl]
  simp only [pin_events_append, pin_events_write_bit]
  simp [pin_events]

theorem clock_events_write_byte_head (d val : Nat) :
    clock_events (write_byte_head d val) =
      (List.replicate 9 [Ev.scl_low, Ev.scl_release]).flatten := by
  unfold write_byte_head
  rw [show ∀ (e : Ev) (l : List Ev), e :: l = [e] ++ l from fun _ _ => rfl]
  simp only [clock_events_append, clock_events_write_bit]
  simp [clock_events, List.replicate]

theorem samples_write_byte_head (d val : Nat) : samples (write_byte_head d val) = [] := by
  unfold write_byte_head
  rw [show ∀ (e : Ev) (l : List Ev), e :: l = [e] ++ l from fun _ _ => rfl]
  simp only [samples_append, samples_write_bit]
  simp [samples]

/-- C13: for every byte value and every responder, the pin operations of
`mp_hal_i2c_write_byte` are eight times (clock low, data bit, clock released),
then clock low, data released, clock released, one read of the data line, clock
low: nine clock pulses, the data line released before the ninth, exactly
one sample, taken in the ninth pulse while the clock is released; the function
returns true exactly when the value sampled is 0. -/
theorem write_byte_nine_clocks (env : Responder) (self : machine_i2c_obj_t) (val : Nat) :
    pin_events (since self (mp_hal_i2c_write_byte env self val).2) =
      [Ev.scl_low, data_bit_event (val % 256) 7, Ev.scl_release,
       Ev.scl_low, data_bit_event (val % 256) 6, Ev.scl_release,
       Ev.scl_low, data_bit_event (val % 256) 5, Ev.scl_release,
       Ev.scl_low, data_bit_event (val % 256) 4, Ev.scl_release,
       Ev.scl_low, data_bit_event (val % 256) 3, Ev.scl_release,
       Ev.scl_low, data_bit_event (val % 256) 2, Ev.scl_release,
       Ev.scl_low, data_bit_event (val % 256) 1, Ev.scl_release,
       Ev.scl_low, data_bit_event (val % 256) 0, Ev.scl_release,
       Ev.scl_low, Ev.sda_release, Ev.scl_release,
       Ev.sda_read (env (self.log ++ write_byte_head self.us_delay (val % 256))),
       Ev.scl_low] ∧
    clock_events (since self (mp_hal_i2c_write_byte env self val).2) =
      (List.replicate 9 [Ev.scl_low, Ev.scl_release]).flatten ++ [Ev.scl_low] ∧
    (clock_events (since self (mp_hal_i2c_write_byte env self val).2)).count Ev.scl_release = 9 ∧
    samples (since self (mp_hal_i2c_write_byte env self val).2) =
      [env (self.log ++ write_byte_head self.us_delay (val % 256))] ∧
    ((mp_hal_i2c_write_byte env self val).1 = true ↔
      env (self.log ++ write_byte_head self.us_delay (val % 256)) = 0) := by
  rw [write_byte_eq]
  rw [since_of_log_eq (List.append_assoc _ _ _)]
  refine ⟨?_, ?_, ?_, ?_, ?_⟩
  · rw [pin_events_append, pin_events_write_byte_head]
    simp [pin_events, write_byte_tail]
  · rw [clock_events_append, clock_events_write_byte_head]
    simp [clock_events, write_byte_tail]
  · rw [clock_events_append, clock_events_write_byte_head]
    simp [clock_events, write_byte_tail, List.replicate]
  · rw [samples_append, samples_write_byte_head]
    simp [samples, write_byte_tail]
  · simp

/-! ## The data-line rule -/

theorem lines_after_append (st : Bool × Bool) (a b : List Ev) :
    lines_after st (a ++ b) = lines_after (lines_after st a) b := by
  simp [lines_after, List.foldl_append]

theorem seg_ok_append (c : Option Call) (a : List Ev) :
    ∀ (st : Bool × Bool) (b : List Ev),
      seg_ok c st (a ++ b) = (seg_ok c st a && seg_ok c (lines_after st a) b) := by
  induction a with
  | nil => intro st b; simp [seg_ok, lines_after]
  | cons e a ih =>
    intro st b
    simp [seg_ok, ih, lines_after, Bool.and_assoc]

theorem enclosing_call_segment (evs : List Ev) (c : Call) (rest : List Ev)
    (h : calls evs = []) : enclosing_call (evs ++ Ev.ret c :: rest) = some c := by
  induction evs with
  | nil => rfl
  | cons e evs ih =>
    cases e <;> simp_all [calls, enclosing_call]

theorem data_rule_segment (c : Call) (evs : List Ev) :
    ∀ (st : Bool × Bool) (rest : List Ev), calls evs = [] →
      data_rule st (evs ++ Ev.ret c :: rest) =
        (seg_ok (some c) st evs && data_rule (lines_after st evs) rest) := by
  induction evs with
  | nil => intro st rest _; simp [data_rule, seg_ok, lines_after, allowed, line_step]
  | cons e evs ih =>
    intro st rest h
    have htl : calls evs = [] := by
      cases e <;> simp_all [calls]
    have henc := enclosing_call_segment (e :: evs) c rest h
    rw [List.cons_append] at henc ⊢
    rw [data_rule, henc, ih _ _ htl, seg_ok]
    simp [lines_after, Bool.and_assoc]

theorem Follows.refl (st : Bool × Bool) (self : machine_i2c_obj_t) : Follows st st self self :=
  ⟨[], by simp, rfl, fun _ => rfl⟩

theorem Follows.trans {st1 st2 st3 : Bool × Bool} {s1 s2 s3 : machine_i2c_obj_t}
    (h12 : Follows st1 st2 s1 s2) (h23 : Follows st2 st3 s2 s3) : Follows st1 st3 s1 s3 := by
  obtain ⟨l1, hl1, hs1, hr1⟩ := h12
  obtain ⟨l2, hl2, hs2, hr2⟩ := h23
  refine ⟨l1 ++ l2, by simp [hl2, hl1], by rw [lines_after_append, hs1, hs2], ?_⟩
  intro rest
  rw [List.append_assoc, hr1, hr2]

/-- A call whose events are `evs` followed by its `ret` mark. -/
theorem follows_of_segment {st st' : Bool × Bool} {self self' : machine_i2c_obj_t}
    (c : Call) (evs : List Ev) (hlog : self'.log = self.log ++ (evs ++ [Ev.ret c]))
    (hcalls : calls evs = []) (hok : seg_ok (some c) st evs = true)
    (hst : lines_after st evs = st') : Follows st st' self self' := by
  refine ⟨evs ++ [Ev.ret c], hlog, ?_, ?_⟩
  · rw [lines_after_append, hst]
    rfl
  · intro rest
    rw [List.append_assoc, List.singleton_append, data_rule_segment c evs st rest hcalls, hok,
      hst]
    rfl

theorem follows_start (self : machine_i2c_obj_t) (scl : Bool) :
    Follows (scl, true) (true, false) self (mp_hal_i2c_start self) := by
  apply follows_of_segment Call.start
    [Ev.atomic_begin, Ev.sda_release, Ev.delay self.us_delay, Ev.scl_release,
      Ev.delay self.us_delay, Ev.sda_low, Ev.delay self.us_delay, Ev.atomic_end]
  · rw [start_eq]; rfl
  · simp [calls]
  · cases scl <;> simp [seg_ok, allowed, line_step]
  · cases scl <;> simp [lines_after, line_step]

theorem follows_stop (self : machine_i2c_obj_t) (sda : Bool) :
    Follows (false, sda) (true, true) self (mp_hal_i2c_stop self) := by
  apply follows_of_segment Call.stop
    [Ev.atomic_begin, Ev.delay self.us_delay, Ev.sda_low, Ev.delay self.us_delay,
      Ev.scl_release, Ev.delay self.us_delay, Ev.sda_release, Ev.delay self.us_delay,
      Ev.atomic_end]
  · rw [stop_eq]; rfl
  · simp [calls]
  · cases sda <;> simp [seg_ok, allowed, line_step]
  · cases sda <;> simp [lines_after, line_step]

theorem seg_ok_write_bit (c : Option Call) (st : Bool × Bool) (d val i : Nat) :
    seg_ok c st (write_bit_events d val i) = true ∧
      lines_after st (write_bit_events d val i) = (true, decide ((val >>> i) &&& 1 ≠ 0)) := by
  unfold write_bit_events
  by_cases h : (val >>> i) &&& 1 ≠ 0
  · rw [if_pos h, decide_eq_true h]
    simp [seg_ok, allowed, line_step, lines_after]
  · rw [if_neg h, decide_eq_false h]
    simp [seg_ok, allowed, line_step, lines_after]

theorem seg_ok_write_byte_head (c : Option Call) (st : Bool × Bool) (d val : Nat) :
    seg_ok c st (write_byte_head d val) = true ∧
      lines_after st (write_byte_head d val) = (true, true) := by
  unfold write_byte_head
  rw [show ∀ (e : Ev) (l : List Ev), e :: l = [e] ++ l from fun _ _ => rfl]
  simp only [seg_ok_append, lines_after_append, seg_ok_write_bit]
  simp [seg_ok, allowed, line_step, lines_after]

theorem follows_write_byte (env : Responder) (self : machine_i2c_obj_t) (val : Nat)
    (st : Bool × Bool) :
    Follows st (false, true) self (mp_hal_i2c_write_byte env self val).2 := by
  apply follows_of_segment
    (Call.write_byte (val % 256)
      (env (self.log ++ write_byte_head self.us_delay (val % 256)) == 0))
    (write_byte_head self.us_delay (val % 256) ++
      [Ev.sda_read (env (self.log ++ write_byte_head self.us_delay (val % 256))),
       Ev.delay self.us_delay, Ev.scl_low, Ev.atomic_end])
  · rw [write_byte_eq]
    simp [write_byte_tail]
  · rw [calls_append, calls_write_byte_head]
    simp [calls]
  · have hh := seg_ok_write_byte_head
      (some (Call.write_byte (val % 256)
        (env (self.log ++ write_byte_head self.us_delay (val % 256)) == 0)))
      st self.us_delay (val % 256)
    rw [seg_ok_append, hh.1, hh.2]
    simp [seg_ok, allowed, line_step]
  · rw [lines_after_append, (seg_ok_write_byte_head none st _ _).2]
    simp [lines_after, line_step]

theorem calls_read_bits (d : Nat) (bits : List Nat) :
    calls (bits.flatMap (read_bit_events d)) = [] := by
  induction bits with
  | nil => simp [calls]
  | cons b bits ih =>
    rw [List.flatMap_cons, calls_append, ih]
    simp [read_bit_events, read_bit_head, calls]

theorem seg_ok_read_bits (c : Option Call) (d : Nat) (bits : List Nat) :
    ∀ st : Bool × Bool,
      seg_ok c st (bits.flatMap (read_bit_events d)) = true ∧
        (lines_after st (bits.flatMap (read_bit_events d))).2 = st.2 := by
  induction bits with
  | nil => intro st; simp [seg_ok, lines_after]
  | cons b bits ih =>
    intro st
    rw [List.flatMap_cons, seg_ok_append, lines_after_append]
    have h1 : seg_ok c st (read_bit_events d b) = true ∧
        lines_after st (read_bit_events d b) = (true, st.2) := by
      simp [read_bit_events, read_bit_head, seg_ok, allowed, line_step, lines_after]
    rw [h1.1, h1.2, (ih (true, st.2)).1, (ih (true, st.2)).2]
    simp

theorem follows_read_byte (env : Responder) (self : machine_i2c_obj_t) (nack : Bool)
    (st : Bool × Bool) :
    Follows st (false, true) self (mp_hal_i2c_read_byte env self nack).2.2 := by
  have hb := seg_ok_read_bits
    (some (Call.read_byte nack (shift_in 0
      (read_samples env self.us_delay 8 (self.log ++ [Ev.delay self.us_delay])))))
    self.us_delay (read_samples env self.us_delay 8 (self.log ++ [Ev.delay self.us_delay])) st
  have h0 : lines_after st [Ev.delay self.us_delay] = st := rfl
  apply follows_of_segment
    (Call.read_byte nack (shift_in 0
      (read_samples env self.us_delay 8 (self.log ++ [Ev.delay self.us_delay]))))
    ([Ev.delay self.us_delay] ++
      ((read_samples env self.us_delay 8 (self.log ++ [Ev.delay self.us_delay])).flatMap
          (read_bit_events self.us_delay) ++
        ([Ev.atomic_begin, Ev.scl_low, Ev.delay self.us_delay] ++
          (if nack then [] else [Ev.sda_low]) ++
          [Ev.delay self.us_delay, Ev.scl_release, Ev.delay self.us_delay, Ev.scl_low,
           Ev.sda_release, Ev.atomic_end])))
  · rw [read_byte_eq]
    simp [read_byte_events]
  · simp only [calls_append, calls_read_bits]
    cases nack <;> simp [calls]
  · rw [seg_ok_append, seg_ok_append, h0, hb.1]
    generalize lines_after st
      ((read_samples env self.us_delay 8 (self.log ++ [Ev.delay self.us_delay])).flatMap
        (read_bit_events self.us_delay)) = g
    cases nack <;> simp [seg_ok, allowed, line_step]
  · rw [lines_after_append, lines_after_append, h0]
    generalize lines_after st
      ((read_samples env self.us_delay 8 (self.log ++ [Ev.delay self.us_delay])).flatMap
        (read_bit_events self.us_delay)) = g
    cases nack <;> simp [lines_after, line_step]

theorem follows_write_loop (env : Responder) (data : List Nat) :
    ∀ self : machine_i2c_obj_t,
      Follows (false, true) (false, true) self (write_loop env data self).2 := by
  induction data with
  | nil => intro self; exact Follows.refl _ _
  | cons d data ih =>
    intro self
    have h1 := follows_write_byte env self d (false, true)
    unfold write_loop
    cases h : (mp_hal_i2c_write_byte env self d).1 with
    | false => simpa [h] using h1
    | true => simpa [h] using h1.trans (ih _)

theorem follows_write_loop_cons (env : Responder) (d : Nat) (data : List Nat)
    (self : machine_i2c_obj_t) (st : Bool × Bool) :
    Follows st (false, true) self (write_loop env (d :: data) self).2 := by
  have h1 := follows_write_byte env self d st
  unfold write_loop
  cases h : (mp_hal_i2c_write_byte env self d).1 with
  | false => simpa [h] using h1
  | true => simpa [h] using h1.trans (follows_write_loop env data _)

theorem follows_write (env : Responder) (self : machine_i2c_obj_t) (addr : Nat)
    (data : List Nat) (stop : Bool) (scl : Bool) :
    ∃ scl', Follows (scl, true) (scl', true) self
      (mp_hal_i2c_write env self addr data stop).2 := by
  have h0 := follows_start self scl
  have h1 := follows_write_loop_cons env ((addr % 256) <<< 1) data (mp_hal_i2c_start self)
    (true, false)
  have h2 := follows_stop
    (write_loop env (((addr % 256) <<< 1) :: data) (mp_hal_i2c_start self)).2 true
  rw [write_eq_loop]
  cases h : (write_loop env (((addr % 256) <<< 1) :: data) (mp_hal_i2c_start self)).1 with
  | false => exact ⟨true, by simpa [h, er] using (h0.trans h1).trans h2⟩
  | true =>
    cases stop with
    | true => exact ⟨true, by simpa [h] using (h0.trans h1).trans h2⟩
    | false => exact ⟨false, by simpa [h] using h0.trans h1⟩

theorem follows_read_loop (env : Responder) (len : Nat) :
    ∀ (buf : List Nat) (self : machine_i2c_obj_t),
      Follows (false, true) (false, true) self (read_loop env len buf self).2.2 := by
  induction len with
  | zero => intro buf self; exact Follows.refl _ _
  | succ n ih =>
    intro buf self
    have h1 := follows_read_byte env self (n == 0) (false, true)
    obtain ⟨_, _, _, hr⟩ := read_byte_run env self (n == 0)
    rw [read_loop]
    simpa [hr] using h1.trans (ih _ _)

theorem follows_read (env : Responder) (self : machine_i2c_obj_t) (addr len : Nat)
    (scl : Bool) :
    Follows (scl, true) (true, true) self (mp_hal_i2c_read env self addr len).2.2 := by
  have h0 := follows_start self scl
  have h1 := follows_write_byte env (mp_hal_i2c_start self) (((addr % 256) <<< 1) ||| 1)
    (true, false)
  obtain ⟨_, _, hdone, _⟩ := read_loop_run env len []
    (mp_hal_i2c_write_byte env (mp_hal_i2c_start self) (((addr % 256) <<< 1) ||| 1)).2
  unfold mp_hal_i2c_read
  cases h : (mp_hal_i2c_write_byte env (mp_hal_i2c_start self)
      (((addr % 256) <<< 1) ||| 1)).1 with
  | false => simpa [h, er] using (h0.trans h1).trans (follows_stop _ true)
  | true =>
    simpa [h, hdone] using
      ((h0.trans h1).trans (follows_read_loop env len [] _)).trans (follows_stop _ true)

theorem follows_write_mem (env : Responder) (self : machine_i2c_obj_t)
    (addr memaddr : Nat) (src : List Nat) (scl : Bool) :
    Follows (scl, true) (true, true) self (mp_hal_i2c_write_mem env self addr memaddr src).2 := by
  have h0 := follows_start self scl
  have h1 := follows_write_loop_cons env ((addr % 256) <<< 1)
    (memaddr_bytes (memaddr % 65536) ++ src) (mp_hal_i2c_start self) (true, false)
  rw [write_mem_eq_loop]
  cases h : (write_loop env (((addr % 256) <<< 1) :: (memaddr_bytes (memaddr % 65536) ++ src))
      (mp_hal_i2c_start self)).1 with
  | false => simpa [h, er] using (h0.trans h1).trans (follows_stop _ true)
  | true => simpa [h] using (h0.trans h1).trans (follows_stop _ true)

theorem follows_read_mem (env : Responder) (self : machine_i2c_obj_t)
    (addr memaddr len : Nat) (scl : Bool) :
    Follows (scl, true) (true, true) self
      (mp_hal_i2c_read_mem env self addr memaddr len).2.2 := by
  have h0 := follows_start self scl
  have h1 := follows_write_loop_cons env ((addr % 256) <<< 1)
    (memaddr_bytes (memaddr % 65536)) (mp_hal_i2c_start self) (true, false)
  unfold mp_hal_i2c_read_mem
  simp only [write_memaddr_eq_loop]
  cases h : (write_loop env (((addr % 256) <<< 1) :: memaddr_bytes (memaddr % 65536))
      (mp_hal_i2c_start self)).1 with
  | false => simpa [h, er] using (h0.trans h1).trans (follows_stop _ true)
  | true => simpa [h] using (h0.trans h1).trans (follows_read env _ (addr % 256) len false)

theorem follows_scan_probe (env : Responder) (list : List Nat) (self : machine_i2c_obj_t)
    (a : Nat) (scl : Bool) :
    Follows (scl, true) (true, true) self (scan_probe env (list, self) a).2 := by
  have h := ((follows_start self scl).trans
    (follows_write_byte env (mp_hal_i2c_start self) ((a <<< 1) ||| 1) (true, false))).trans
    (follows_stop _ true)
  unfold scan_probe
  cases hack : (mp_hal_i2c_write_byte env (mp_hal_i2c_start self) ((a <<< 1) ||| 1)).1 <;>
  simpa [hack] using h

theorem follows_scan_loop (env : Responder) (addrs : List Nat) :
    ∀ (list : List Nat) (self : machine_i2c_obj_t) (scl : Bool),
      ∃ scl', Follows (scl, true) (scl', true) self
        (addrs.foldl (scan_probe env) (list, self)).2 := by
  induction addrs with
  | nil => intro list self scl; exact ⟨scl, Follows.refl _ _⟩
  | cons a addrs ih =>
    intro list self scl
    obtain ⟨scl', h⟩ := ih (scan_probe env (list, self) a).1 (scan_probe env (list, self) a).2 true
    exact ⟨scl', (follows_scan_probe env list self a scl).trans h⟩

theorem follows_scan (hw_ping : Nat → Bool) (env : Responder) (self : machine_i2c_obj_t)
    (scl : Bool) :
    ∃ scl', Follows (scl, true) (scl', true) self (machine_i2c_scan hw_ping env self).2 := by
  unfold machine_i2c_scan
  by_cases hb : self.bus_id < 2
  · simp only [hb, if_true]
    exact ⟨scl, Follows.refl _ _⟩
  · simp only [hb, if_false]
    exact follows_scan_loop env _ [] self scl

theorem follows_run_ops (hw_ping : Nat → Bool) (env : Responder) (ops : List Op) :
    ∀ (self : machine_i2c_obj_t) (scl : Bool),
      ∃ scl', Follows (scl, true) (scl', true) self (run_ops hw_ping env ops self) := by
  induction ops with
  | nil => intro self scl; exact ⟨scl, Follows.refl _ _⟩
  | cons op ops ih =>
    intro self scl
    have hop : ∃ scl', Follows (scl, true) (scl', true) self (run_op hw_ping env self op) := by
      cases op with
      | write addr data stop => exact follows_write env self addr data stop scl
      | read addr len => exact ⟨true, follows_read env self addr len scl⟩
      | write_mem addr memaddr src => exact ⟨true, follows_write_mem env self addr memaddr src scl⟩
      | read_mem addr memaddr len => exact ⟨true, follows_read_mem env self addr memaddr len scl⟩
      | scan => exact follows_scan hw_ping env self scl
    obtain ⟨scl1, h1⟩ := hop
    obtain ⟨scl2, h2⟩ := ih (run_op hw_ping env self op) scl1
    exact ⟨scl2, h1.trans h2⟩

/-- C12: starting from an idle bus (both lines released), after any sequence of
bit-bang operations (write with or without stop, read, write-to-memory,
read-from-memory, scan), with any responder, the log keeps the data-line rule:
the data level the master drives changes only while the clock is driven low,
except for a high-to-low change inside a start condition and a low-to-high
change inside a stop condition; and the data line is released again after the
sequence. -/
theorem data_changes_only_while_clock_low (hw_ping : Nat → Bool) (env : Responder)
    (ops : List Op) (self : machine_i2c_obj_t) (hscl : self.scl = 1) (hsda : self.sda = 1) :
    data_rule (lines_of self) (since self (run_ops hw_ping env ops self)) = true ∧
    (lines_after (lines_of self) (since self (run_ops hw_ping env ops self))).2 = true := by
  obtain ⟨scl', l, hl, hst, hrule⟩ := follows_run_ops hw_ping env ops self true
  have hlines : lines_of self = (true, true) := by simp [lines_of, hscl, hsda]
  rw [since_of_log_eq hl, hlines]
  refine ⟨?_, by rw [hst]⟩
  have := hrule []
  simpa [data_rule] using this

/-- C12 at a concrete input: a write without stop, a read, a memory write, a
memory read and a scan in a row on an idle bus. -/
theorem data_changes_only_while_clock_low_witness :
    data_rule (lines_of idle_bus) (since idle_bus
      (run_ops (fun _ => false) (device_bus [0x50])
        [Op.write 0x50 [0xAB] false, Op.read 0x50 2, Op.write_mem 0x50 0x0100 [1, 2],
         Op.read_mem 0x50 0x10 1, Op.scan] idle_bus)) = true ∧
    (lines_after (lines_of idle_bus) (since idle_bus
      (run_ops (fun _ => false) (device_bus [0x50])
        [Op.write 0x50 [0xAB] false, Op.read 0x50 2, Op.write_mem 0x50 0x0100 [1, 2],
         Op.read_mem 0x50 0x10 1, Op.scan] idle_bus))).2 = true :=
  data_changes_only_while_clock_low (fun _ => false) (device_bus [0x50])
    [Op.write 0x50 [0xAB] false, Op.read 0x50 2, Op.write_mem 0x50 0x0100 [1, 2],
     Op.read_mem 0x50 0x10 1, Op.scan] idle_bus rfl rfl

set_option maxRecDepth 100000 in
/-- The data-line rule is not vacuous: two start conditions in a row break it
(the second one releases the data line while the clock is released), and so
does a bare fall of the data line outside any start condition. -/
theorem data_rule_rejects_double_start :
    data_rule (lines_of idle_bus)
      (since idle_bus (mp_hal_i2c_start (mp_hal_i2c_start idle_bus))) = false ∧
    data_rule (true, true) [Ev.sda_low, Ev.ret Call.stop] = false ∧
    data_rule (true, true) [Ev.sda_low, Ev.ret Call.start] = true := by
  decide

/-! ## Start followed by stop -/

theorem start_stop_log (self : machine_i2c_obj_t) :
    (mp_hal_i2c_stop (mp_hal_i2c_start self)).log = self.log ++
      [Ev.atomic_begin, Ev.sda_release, Ev.delay self.us_delay, Ev.scl_release,
       Ev.delay self.us_delay, Ev.sda_low, Ev.delay self.us_delay, Ev.atomic_end,
       Ev.ret Call.start,
       Ev.atomic_begin, Ev.delay self.us_delay, Ev.sda_low, Ev.delay self.us_delay,
       Ev.scl_release, Ev.delay self.us_delay, Ev.sda_release, Ev.delay self.us_delay,
       Ev.atomic_end, Ev.ret Call.stop] := by
  rw [stop_eq, start_eq]
  simp

/-- C15 (as the code has it): from any state of the two lines,
`mp_hal_i2c_start` immediately followed by `mp_hal_i2c_stop` leaves both lines
released, reads the data line never, drives the clock low never (so there is
no clock pulse and no byte is transferred), and makes no engine call but the
start and the stop.  Unless it begins with the clock released and the data
line driven low, the data-line changes while the clock is released are exactly
one high-to-low (START) and then one low-to-high (STOP); when it begins with
the clock released and the data line low, the release of the data line at the
beginning of the start condition is one more low-to-high change before them. -/
theorem start_stop_leaves_lines_released (self : machine_i2c_obj_t) :
    (mp_hal_i2c_stop (mp_hal_i2c_start self)).scl = 1 ∧
    (mp_hal_i2c_stop (mp_hal_i2c_start self)).sda = 1 ∧
    calls (since self (mp_hal_i2c_stop (mp_hal_i2c_start self))) = [Call.start, Call.stop] ∧
    samples (since self (mp_hal_i2c_stop (mp_hal_i2c_start self))) = [] ∧
    clock_events (since self (mp_hal_i2c_stop (mp_hal_i2c_start self))) =
      [Ev.scl_release, Ev.scl_release] ∧
    (lines_of self ≠ (true, false) →
      data_changes_clock_high (lines_of self)
        (since self (mp_hal_i2c_stop (mp_hal_i2c_start self))) =
        [Ev.sda_low, Ev.sda_release]) ∧
    (lines_of self = (true, false) →
      data_changes_clock_high (lines_of self)
        (since self (mp_hal_i2c_stop (mp_hal_i2c_start self))) =
        [Ev.sda_release, Ev.sda_low, Ev.sda_release]) := by
  rw [since_of_log_eq (start_stop_log self)]
  refine ⟨by rw [stop_eq], by rw [stop_eq], by simp [calls], by simp [samples],
    by simp [clock_events], ?_, ?_⟩
  · intro h
    generalize lines_of self = st at h
    rcases st with ⟨a, b⟩
    cases a <;> cases b <;> simp_all [data_changes_clock_high, line_step]
  · intro h
    rw [h]
    simp [data_changes_clock_high, line_step]

/-- C15 at a concrete input: start then stop on an idle bus. -/
theorem start_stop_leaves_lines_released_witness :
    data_changes_clock_high (lines_of idle_bus)
      (since idle_bus (mp_hal_i2c_stop (mp_hal_i2c_start idle_bus))) =
      [Ev.sda_low, Ev.sda_release] :=
  (start_stop_leaves_lines_released idle_bus).2.2.2.2.2.1 (by decide)

set_option maxRecDepth 100000 in
/-- C15 as stated fails: begun with the clock released and the data line driven
low, start then stop changes the data line three times while the clock is
released, two of them low-to-high. -/
theorem start_stop_from_data_low :
    lines_of { idle_bus with sda := 0 } = (true, false) ∧
    data_changes_clock_high (lines_of { idle_bus with sda := 0 })
      (since { idle_bus with sda := 0 }
        (mp_hal_i2c_stop (mp_hal_i2c_start { idle_bus with sda := 0 }))) =
      [Ev.sda_release, Ev.sda_low, Ev.sda_release] := by
  decide

/-! ## Failed transactions end with a stop -/

theorem ends_with_stop_of {self s : machine_i2c_obj_t} {l : List Ev}
    (h : s.log = self.log ++ l) : ends_with_stop self (mp_hal_i2c_stop s) := by
  have hlog : (mp_hal_i2c_stop s).log = self.log ++ (l ++ stop_events s.us_delay) := by
    rw [stop_eq, ← List.append_assoc, ← h]
    rfl
  refine ⟨s, l, h, rfl, since_of_log_eq hlog, ?_, by rw [stop_eq], by rw [stop_eq]⟩
  rw [since_of_log_eq hlog, calls_append]
  simp [stop_events, calls]

theorem ends_with_stop_of_follows {self s last : machine_i2c_obj_t} {st st' : Bool × Bool}
    (h : Follows st st' self s) (hl : ends_with_stop s last) : ends_with_stop self last := by
  obtain ⟨l, hlog, _, _⟩ := h
  obtain ⟨s', l', hlog', hlast, _, _, _, _⟩ := hl
  rw [hlast]
  exact @ends_with_stop_of self s' (l ++ l') (by rw [hlog', hlog, List.append_assoc])

theorem write_error_ends_with_stop (env : Responder) (self : machine_i2c_obj_t) (addr : Nat)
    (data : List Nat) (stop : Bool)
    (h : (mp_hal_i2c_write env self addr data stop).1 = Outcome.bus_error) :
    ends_with_stop self (mp_hal_i2c_write env self addr data stop).2 := by
  obtain ⟨l, hl, _, _⟩ := (follows_start self true).trans
    (follows_write_loop_cons env ((addr % 256) <<< 1) data (mp_hal_i2c_start self) (true, false))
  rw [write_eq_loop] at h ⊢
  cases hloop : (write_loop env (((addr % 256) <<< 1) :: data) (mp_hal_i2c_start self)).1 with
  | true => simp [hloop] at h
  | false =>
    simp only [hloop, Bool.false_eq_true, if_false, er]
    exact ends_with_stop_of hl

theorem read_error_ends_with_stop (env : Responder) (self : machine_i2c_obj_t) (addr len : Nat)
    (h : (mp_hal_i2c_read env self addr len).1 = Outcome.bus_error) :
    ends_with_stop self (mp_hal_i2c_read env self addr len).2.2 := by
  obtain ⟨l, hl, _, _⟩ := (follows_start self true).trans
    (follows_write_byte env (mp_hal_i2c_start self) (((addr % 256) <<< 1) ||| 1) (true, false))
  obtain ⟨_, _, hdone, _⟩ := read_loop_run env len []
    (mp_hal_i2c_write_byte env (mp_hal_i2c_start self) (((addr % 256) <<< 1) ||| 1)).2
  unfold mp_hal_i2c_read at h ⊢
  cases hack : (mp_hal_i2c_write_byte env (mp_hal_i2c_start self)
      (((addr % 256) <<< 1) ||| 1)).1 with
  | true => simp [hack, hdone] at h
  | false =>
    simp only [hack, Bool.not_false, if_true, er]
    exact ends_with_stop_of hl

theorem write_mem_error_ends_with_stop (env : Responder) (self : machine_i2c_obj_t)
    (addr memaddr : Nat) (src : List Nat)
    (h : (mp_hal_i2c_write_mem env self addr memaddr src).1 = Outcome.bus_error) :
    ends_with_stop self (mp_hal_i2c_write_mem env self addr memaddr src).2 := by
  obtain ⟨l, hl, _, _⟩ := (follows_start self true).trans
    (follows_write_loop_cons env ((addr % 256) <<< 1)
      (memaddr_bytes (memaddr % 65536) ++ src) (mp_hal_i2c_start self) (true, false))
  rw [write_mem_eq_loop] at h ⊢
  cases hloop : (write_loop env
      (((addr % 256) <<< 1) :: (memaddr_bytes (memaddr % 65536) ++ src))
      (mp_hal_i2c_start self)).1 with
  | true => simp [hloop] at h
  | false =>
    simp only [hloop, Bool.false_eq_true, if_false, er]
    exact ends_with_stop_of hl

theorem read_mem_error_ends_with_stop (env : Responder) (self : machine_i2c_obj_t)
    (addr memaddr len : Nat)
    (h : (mp_hal_i2c_read_mem env self addr memaddr len).1 = Outcome.bus_error) :
    ends_with_stop self (mp_hal_i2c_read_mem env self addr memaddr len).2.2 := by
  have hf := (follows_start self true).trans
    (follows_write_loop_cons env ((addr % 256) <<< 1)
      (memaddr_bytes (memaddr % 65536)) (mp_hal_i2c_start self) (true, false))
  unfold mp_hal_i2c_read_mem at h ⊢
  simp only [write_memaddr_eq_loop] at h ⊢
  cases hloop : (write_loop env (((addr % 256) <<< 1) :: memaddr_bytes (memaddr % 65536))
      (mp_hal_i2c_start self)).1 with
  | false =>
    obtain ⟨l, hl, _, _⟩ := hf
    simp only [hloop, Bool.not_false, if_true, er]
    exact ends_with_stop_of hl
  | true =>
    simp only [hloop, Bool.not_true, Bool.false_eq_true, if_false] at h ⊢
    exact ends_with_stop_of_follows hf (read_error_ends_with_stop env _ _ _ h)

/-- C14: whenever `mp_hal_i2c_write` (with or without stop), `mp_hal_i2c_read`,
`mp_hal_i2c_write_mem` or `mp_hal_i2c_read_mem` raises the bus error, with any
responder, the state it leaves is the result of a stop condition: the events
of `mp_hal_i2c_stop` are the end of the log (no start and no byte transfer
after them), the last engine call is the stop, and both the clock and the
data line are released. -/
theorem bus_error_ends_with_stop (env : Responder) (self : machine_i2c_obj_t)
    (addr memaddr len : Nat) (data : List Nat) (stop : Bool) :
    ((mp_hal_i2c_write env self addr data stop).1 = Outcome.bus_error →
      ends_with_stop self (mp_hal_i2c_write env self addr data stop).2) ∧
    ((mp_hal_i2c_read env self addr len).1 = Outcome.bus_error →
      ends_with_stop self (mp_hal_i2c_read env self addr len).2.2) ∧
    ((mp_hal_i2c_write_mem env self addr memaddr data).1 = Outcome.bus_error →
      ends_with_stop self (mp_hal_i2c_write_mem env self addr memaddr data).2) ∧
    ((mp_hal_i2c_read_mem env self addr memaddr len).1 = Outcome.bus_error →
      ends_with_stop self (mp_hal_i2c_read_mem env self addr memaddr len).2.2) :=
  ⟨write_error_ends_with_stop env self addr data stop,
   read_error_ends_with_stop env self addr len,
   write_mem_error_ends_with_stop env self addr memaddr data,
   read_mem_error_ends_with_stop env self addr memaddr len⟩

set_option maxRecDepth 1000000 in
/-- C14 at a concrete input: a write of `[0xAB]` to device 0x50, which
acknowledges its address but not the data byte, raises the bus error after a
stop and leaves the bus idle. -/
theorem bus_error_ends_with_stop_witness :
    (mp_hal_i2c_write (device_bus [0x50]) idle_bus 0x50 [0xAB] true).1 = Outcome.bus_error ∧
    calls (since idle_bus (mp_hal_i2c_write (device_bus [0x50]) idle_bus 0x50 [0xAB] true).2) =
      [Call.start, Call.write_byte 0xA0 true, Call.write_byte 0xAB false, Call.stop] ∧
    ends_with_stop idle_bus (mp_hal_i2c_write (device_bus [0x50]) idle_bus 0x50 [0xAB] true).2 :=
  ⟨by decide, by decide,
   (bus_error_ends_with_stop (device_bus [0x50]) idle_bus 0x50 0 0 [0xAB] true).1 (by decide)⟩

/-! ## Bit order -/

theorem shift_in_lt (bits : List Nat) : ∀ data, data < 256 → shift_in data bits < 256 := by
  induction bits with
  | nil => intro data h; simpa [shift_in] using h
  | cons b bits ih =>
    intro data _
    have := ih (((data <<< 1) ||| b) % 256) (Nat.mod_lt _ (by decide))
    simpa [shift_in] using this

set_option maxRecDepth 100000 in
theorem shift_in_bit_levels : ∀ val, val < 256 → shift_in 0 (bit_levels val) = val := by
  decide

theorem shift_or_bit (x b : Nat) (hb : b < 2) : (x <<< 1) ||| b = 2 * x + b := by
  rw [Nat.shiftLeft_eq, Nat.mul_comm]
  exact (Nat.mul_add_lt_is_or (show b < 2 ^ 1 from hb) x).symm

theorem shift_in_weights (s0 s1 s2 s3 s4 s5 s6 s7 : Nat) (h0 : s0 < 2) (h1 : s1 < 2)
    (h2 : s2 < 2) (h3 : s3 < 2) (h4 : s4 < 2) (h5 : s5 < 2) (h6 : s6 < 2) (h7 : s7 < 2) :
    shift_in 0 [s0, s1, s2, s3, s4, s5, s6, s7] =
      s0 * 128 + s1 * 64 + s2 * 32 + s3 * 16 + s4 * 8 + s5 * 4 + s6 * 2 + s7 := by
  simp only [shift_in, List.foldl_cons, List.foldl_nil]
  rw [shift_or_bit 0 s0 h0]
  rw [shift_or_bit _ s1 h1, shift_or_bit _ s2 h2, shift_or_bit _ s3 h3, shift_or_bit _ s4 h4,
    shift_or_bit _ s5 h5, shift_or_bit _ s6 h6, shift_or_bit _ s7 h7]
  omega

/-- C16: for every byte `val` in 0..255, the data levels a listener clocks in
at the first eight rising clock edges of `mp_hal_i2c_write_byte` are bit 7 down
to bit 0 of `val` (the ninth is the released line of the acknowledge slot);
when the eight values `mp_hal_i2c_read_byte` reads are that sequence, it stores
`val`; it assembles the value read as the sum of `s_i * 2^(7-i)` over the
samples, and the byte it stores is always below 256. -/
theorem bit_order_round_trip (env : Responder) (self : machine_i2c_obj_t) (val : Nat)
    (nack : Bool) (st : Listener) (hval : val < 256) :
    ((since self (mp_hal_i2c_write_byte env self val).2).foldl Listener.step st).bits =
      st.bits ++ [val.testBit 7, val.testBit 6, val.testBit 5, val.testBit 4,
        val.testBit 3, val.testBit 2, val.testBit 1, val.testBit 0, true] ∧
    (bit_levels val).map (fun b => decide (b = 1)) =
      [val.testBit 7, val.testBit 6, val.testBit 5, val.testBit 4,
        val.testBit 3, val.testBit 2, val.testBit 1, val.testBit 0] ∧
    (read_samples env self.us_delay 8 (self.log ++ [Ev.delay self.us_delay]) = bit_levels val →
      (mp_hal_i2c_read_byte env self nack).2.1 = val) ∧
    (∀ s0 s1 s2 s3 s4 s5 s6 s7 : Nat, s0 < 2 → s1 < 2 → s2 < 2 → s3 < 2 → s4 < 2 → s5 < 2 →
      s6 < 2 → s7 < 2 →
      read_samples env self.us_delay 8 (self.log ++ [Ev.delay self.us_delay]) =
        [s0, s1, s2, s3, s4, s5, s6, s7] →
      (mp_hal_i2c_read_byte env self nack).2.1 =
        s0 * 128 + s1 * 64 + s2 * 32 + s3 * 16 + s4 * 8 + s5 * 4 + s6 * 2 + s7) ∧
    (mp_hal_i2c_read_byte env self nack).2.1 < 256 := by
  have hmod : val % 256 = val := Nat.mod_eq_of_lt hval
  refine ⟨?_, ?_, ?_, ?_, ?_⟩
  · rw [write_byte_eq, since_of_log_eq (List.append_assoc _ _ _), List.foldl_append,
      hmod]
    have h := listen_write_byte_head st self.us_delay val
    generalize (write_byte_head self.us_delay val).foldl Listener.step st = g at h ⊢
    rcases g with ⟨a, b, bits⟩
    simp only at h
    simp [write_byte_tail, Listener.step, h]
  · simp [bit_levels, Nat.testBit_to_div_mod, Nat.shiftRight_eq_div_pow]
  · intro h
    rw [read_byte_eq]
    simp only [h]
    exact shift_in_bit_levels val hval
  · intro s0 s1 s2 s3 s4 s5 s6 s7 h0 h1 h2 h3 h4 h5 h6 h7 h
    rw [read_byte_eq]
    simp only [h]
    exact shift_in_weights s0 s1 s2 s3 s4 s5 s6 s7 h0 h1 h2 h3 h4 h5 h6 h7
  · rw [read_byte_eq]
    exact shift_in_lt _ 0 (by decide)

set_option maxRecDepth 100000 in
/-- C16 at a concrete input: the byte 0xA5 is presented as 1,0,1,0,0,1,0,1, and
a read-byte that samples those eight levels stores 0xA5. -/
theorem bit_order_round_trip_witness :
    ((since idle_bus (mp_hal_i2c_write_byte always_ack idle_bus 0xA5).2).foldl Listener.step
        { scl := true, sda := true, bits := [] }).bits =
      [true, false, true, false, false, true, false, true, true] ∧
    bit_levels 0xA5 = [1, 0, 1, 0, 0, 1, 0, 1] ∧
    (mp_hal_i2c_read_byte (replay (bit_levels 0xA5)) idle_bus true).2.1 = 0xA5 :=
  ⟨(bit_order_round_trip always_ack idle_bus 0xA5 true
      { scl := true, sda := true, bits := [] } (by decide)).1,
   by decide,
   (bit_order_round_trip (replay (bit_levels 0xA5)) idle_bus 0xA5 true
      { scl := true, sda := true, bits := [] } (by decide)).2.2.1 (by decide)⟩

/-! ## Address narrowing -/

theorem write_byte_congr (env : Responder) (self : machine_i2c_obj_t) {v v' : Nat}
    (h : v % 256 = v' % 256) :
    mp_hal_i2c_write_byte env self v = mp_hal_i2c_write_byte env self v' := by
  rw [write_byte_eq, write_byte_eq, h]

theorem write_address_byte (a : Nat) : (a % 256) <<< 1 % 256 = a % 128 * 2 := by
  rw [Nat.shiftLeft_eq]
  omega

theorem read_address_byte (a : Nat) : (((a % 256) <<< 1) ||| 1) % 256 = a % 128 * 2 + 1 := by
  rw [shift_or_bit _ 1 (by decide)]
  omega

theorem write_congr (env : Responder) (self : machine_i2c_obj_t) (data : List Nat)
    (stop : Bool) {a a' : Nat} (h : a % 128 = a' % 128) :
    mp_hal_i2c_write env self a data stop = mp_hal_i2c_write env self a' data stop := by
  have hb : mp_hal_i2c_write_byte env (mp_hal_i2c_start self) ((a % 256) <<< 1) =
      mp_hal_i2c_write_byte env (mp_hal_i2c_start self) ((a' % 256) <<< 1) :=
    write_byte_congr env _ (by rw [write_address_byte, write_address_byte, h])
  unfold mp_hal_i2c_write
  simp only [hb]

theorem read_congr (env : Responder) (self : machine_i2c_obj_t) (len : Nat)
    {a a' : Nat} (h : a % 128 = a' % 128) :
    mp_hal_i2c_read env self a len = mp_hal_i2c_read env self a' len := by
  have hb : mp_hal_i2c_write_byte env (mp_hal_i2c_start self) (((a % 256) <<< 1) ||| 1) =
      mp_hal_i2c_write_byte env (mp_hal_i2c_start self) (((a' % 256) <<< 1) ||| 1) :=
    write_byte_congr env _ (by rw [read_address_byte, read_address_byte, h])
  unfold mp_hal_i2c_read
  simp only [hb]

theorem write_memaddr_congr (env : Responder) (self : machine_i2c_obj_t) (memaddr : Nat)
    {a a' : Nat} (h : a % 128 = a' % 128) :
    write_memaddr env self (a % 256) memaddr = write_memaddr env self (a' % 256) memaddr := by
  have hb : mp_hal_i2c_write_byte env self ((a % 256) <<< 1) =
      mp_hal_i2c_write_byte env self ((a' % 256) <<< 1) :=
    write_byte_congr env _ (by rw [write_address_byte, write_address_byte, h])
  unfold write_memaddr
  simp only [hb]

theorem write_mem_congr (env : Responder) (self : machine_i2c_obj_t) (memaddr : Nat)
    (src : List Nat) {a a' : Nat} (h : a % 128 = a' % 128) :
    mp_hal_i2c_write_mem env self a memaddr src =
      mp_hal_i2c_write_mem env self a' memaddr src := by
  unfold mp_hal_i2c_write_mem
  simp only [write_memaddr_congr env _ _ h]

theorem read_mem_congr (env : Responder) (self : machine_i2c_obj_t) (memaddr len : Nat)
    {a a' : Nat} (h : a % 128 = a' % 128) :
    mp_hal_i2c_read_mem env self a memaddr len =
      mp_hal_i2c_read_mem env self a' memaddr len := by
  have h2 : (a % 256) % 128 = (a' % 256) % 128 := by omega
  unfold mp_hal_i2c_read_mem
  simp only [write_memaddr_congr env _ _ h, read_congr env _ len h2]

/-- The first two engine calls of a transaction that begins with a start and a
write loop over `first :: more`. -/
theorem first_calls_of_loop {cs : List Call} {first : Nat} {more : List Nat}
    {tail : List Call}
    (h : cs = Call.start :: acked (first :: more) ++ tail ∨
      ∃ pre b post, first :: more = pre ++ b :: post ∧
        cs = Call.start :: acked pre ++ [Call.write_byte (b % 256) false, Call.stop]) :
    ∃ ack, cs.take 2 = [Call.start, Call.write_byte (first % 256) ack] := by
  rcases h with h | ⟨pre, b, post, hd, h⟩
  · exact ⟨true, by rw [h]; simp [acked]⟩
  · cases pre with
    | nil =>
      simp only [List.nil_append, List.cons.injEq] at hd
      exact ⟨false, by rw [h, hd.1]; simp [acked]⟩
    | cons p pre =>
      simp only [List.cons_append, List.cons.injEq] at hd
      exact ⟨true, by rw [h, hd.1]; simp [acked]⟩

theorem write_first_calls (env : Responder) (self : machine_i2c_obj_t) (a : Nat)
    (data : List Nat) (stop : Bool) :
    (∃ ack, (calls (since self (mp_hal_i2c_write env self a data stop).2)).take 2 =
      [Call.start, Call.write_byte (a % 128 * 2) ack]) ∧
    ((mp_hal_i2c_write env self a data stop).1 = Outcome.bus_error →
      nacked (since self (mp_hal_i2c_write env self a data stop).2) = true) := by
  obtain ⟨l, hl, h⟩ := write_run env self a data stop
  rw [since_of_log_eq hl, ← write_address_byte]
  rcases h with ⟨hok, hc⟩ | ⟨hko, hex⟩
  · exact ⟨first_calls_of_loop (Or.inl hc), fun h => by rw [hok] at h; cases h⟩
  · refine ⟨@first_calls_of_loop _ _ _ [] (Or.inr hex), fun _ => ?_⟩
    obtain ⟨pre, b, post, _, hc⟩ := hex
    rw [nacked, hc]
    simp [is_nack, List.any_append]

theorem read_first_calls (env : Responder) (self : machine_i2c_obj_t) (a len : Nat) :
    (∃ ack, (calls (since self (mp_hal_i2c_read env self a len).2.2)).take 2 =
      [Call.start, Call.write_byte (a % 128 * 2 + 1) ack]) ∧
    ((mp_hal_i2c_read env self a len).1 = Outcome.bus_error →
      nacked (since self (mp_hal_i2c_read env self a len).2.2) = true) := by
  obtain ⟨l, hl, h⟩ := read_run env self a len
  rw [since_of_log_eq hl, ← read_address_byte]
  rcases h with ⟨hok, _, hc⟩ | ⟨_, _, hc⟩
  · exact ⟨⟨true, by rw [hc]; simp⟩, fun h => by rw [hok] at h; cases h⟩
  · exact ⟨⟨false, by rw [hc]; simp⟩, fun _ => by rw [nacked, hc]; simp [is_nack]⟩

theorem write_mem_first_calls (env : Responder) (self : machine_i2c_obj_t)
    (a memaddr : Nat) (src : List Nat) :
    (∃ ack, (calls (since self (mp_hal_i2c_write_mem env self a memaddr src).2)).take 2 =
      [Call.start, Call.write_byte (a % 128 * 2) ack]) ∧
    ((mp_hal_i2c_write_mem env self a memaddr src).1 = Outcome.bus_error →
      nacked (since self (mp_hal_i2c_write_mem env self a memaddr src).2) = true) := by
  obtain ⟨l, hl, h⟩ := write_mem_run env self a memaddr src
  rw [since_of_log_eq hl, ← write_address_byte]
  rcases h with ⟨hok, hc⟩ | ⟨hko, hex⟩
  · exact ⟨first_calls_of_loop (Or.inl hc), fun h => by rw [hok] at h; cases h⟩
  · refine ⟨@first_calls_of_loop _ _ _ [] (Or.inr hex), fun _ => ?_⟩
    obtain ⟨pre, b, post, _, hc⟩ := hex
    rw [nacked, hc]
    simp [is_nack, List.any_append]

theorem read_mem_first_calls (env : Responder) (self : machine_i2c_obj_t)
    (a memaddr len : Nat) :
    (∃ ack, (calls (since self (mp_hal_i2c_read_mem env self a memaddr len).2.2)).take 2 =
      [Call.start, Call.write_byte (a % 128 * 2) ack]) ∧
    ((mp_hal_i2c_read_mem env self a memaddr len).1 = Outcome.bus_error →
      nacked (since self (mp_hal_i2c_read_mem env self a memaddr len).2.2) = true) ∧
    ((mp_hal_i2c_read_mem env self a memaddr len).1 = Outcome.ok →
      Call.write_byte (a % 128 * 2 + 1) true ∈
        calls (since self (mp_hal_i2c_read_mem env self a memaddr len).2.2)) := by
  obtain ⟨l, hl, h⟩ := read_mem_run env self a memaddr len
  rw [since_of_log_eq hl, ← read_address_byte, ← write_address_byte]
  rcases h with ⟨hok, _, hc⟩ | ⟨hko, hex | hc⟩
  · refine ⟨⟨true, by rw [hc]; simp [acked]⟩, fun h => (by rw [hok] at h; cases h), fun _ => ?_⟩
    rw [hc]
    simp
  · refine ⟨@first_calls_of_loop _ _ _ [] (Or.inr hex), fun _ => ?_,
      fun h => by rw [hko] at h; cases h⟩
    obtain ⟨pre, b, post, _, hc⟩ := hex
    rw [nacked, hc]
    simp [is_nack, List.any_append]
  · refine ⟨⟨true, by rw [hc]; simp [acked]⟩, fun _ => ?_, fun h => by rw [hko] at h; cases h⟩
    rw [nacked, hc]
    simp [is_nack, List.any_append]

/-- C17: the slave address is narrowed to `uint8_t` and the shifted address
byte again to 8 bits, so for every address `a` the address byte written by
`mp_hal_i2c_write`, `mp_hal_i2c_write_mem` and the first phase of
`mp_hal_i2c_read_mem` is `(a mod 128) * 2`, and the one written by
`mp_hal_i2c_read` and after the repeated start of `mp_hal_i2c_read_mem` is
`(a mod 128) * 2 + 1`; two addresses congruent modulo 128 give the same result
and the same log in all four transactions; and no address is rejected: the bus
error is raised only when a write-byte was not acknowledged. -/
theorem address_is_taken_modulo_128 (env : Responder) (self : machine_i2c_obj_t)
    (a memaddr len : Nat) (data : List Nat) (stop : Bool) :
    (∀ a', a % 128 = a' % 128 →
      mp_hal_i2c_write env self a data stop = mp_hal_i2c_write env self a' data stop ∧
      mp_hal_i2c_read env self a len = mp_hal_i2c_read env self a' len ∧
      mp_hal_i2c_write_mem env self a memaddr data =
        mp_hal_i2c_write_mem env self a' memaddr data ∧
      mp_hal_i2c_read_mem env self a memaddr len =
        mp_hal_i2c_read_mem env self a' memaddr len) ∧
    (∃ ack, (calls (since self (mp_hal_i2c_write env self a data stop).2)).take 2 =
      [Call.start, Call.write_byte (a % 128 * 2) ack]) ∧
    (∃ ack, (calls (since self (mp_hal_i2c_read env self a len).2.2)).take 2 =
      [Call.start, Call.write_byte (a % 128 * 2 + 1) ack]) ∧
    (∃ ack, (calls (since self (mp_hal_i2c_write_mem env self a memaddr data).2)).take 2 =
      [Call.start, Call.write_byte (a % 128 * 2) ack]) ∧
    (∃ ack, (calls (since self (mp_hal_i2c_read_mem env self a memaddr len).2.2)).take 2 =
      [Call.start, Call.write_byte (a % 128 * 2) ack]) ∧
    ((mp_hal_i2c_read_mem env self a memaddr len).1 = Outcome.ok →
      Call.write_byte (a % 128 * 2 + 1) true ∈
        calls (since self (mp_hal_i2c_read_mem env self a memaddr len).2.2)) ∧
    ((mp_hal_i2c_write env self a data stop).1 = Outcome.bus_error →
      nacked (since self (mp_hal_i2c_write env self a data stop).2) = true) ∧
    ((mp_hal_i2c_read env self a len).1 = Outcome.bus_error →
      nacked (since self (mp_hal_i2c_read env self a len).2.2) = true) ∧
    ((mp_hal_i2c_write_mem env self a memaddr data).1 = Outcome.bus_error →
      nacked (since self (mp_hal_i2c_write_mem env self a memaddr data).2) = true) ∧
    ((mp_hal_i2c_read_mem env self a memaddr len).1 = Outcome.bus_error →
      nacked (since self (mp_hal_i2c_read_mem env self a memaddr len).2.2) = true) :=
  ⟨fun _ h => ⟨write_congr env self data stop h, read_congr env self len h,
      write_mem_congr env self memaddr data h, read_mem_congr env self memaddr len h⟩,
   (write_first_calls env self a data stop).1,
   (read_first_calls env self a len).1,
   (write_mem_first_calls env self a memaddr data).1,
   (read_mem_first_calls env self a memaddr len).1,
   (read_mem_first_calls env self a memaddr len).2.2,
   (write_first_calls env self a data stop).2,
   (read_first_calls env self a len).2,
   (write_mem_first_calls env self a memaddr data).2,
   (read_mem_first_calls env self a memaddr len).2.1⟩

set_option maxRecDepth 1000000 in
/-- C17 at a concrete input: on a bus where only the device 0x10 is present, a
write to address 0x90 is the write to address 0x10: same result, same log, the
address byte 0x20 on the wire, and no error. -/
theorem address_is_taken_modulo_128_witness :
    mp_hal_i2c_write (device_bus [0x10]) idle_bus 0x90 [] true =
      mp_hal_i2c_write (device_bus [0x10]) idle_bus 0x10 [] true ∧
    calls (since idle_bus (mp_hal_i2c_write (device_bus [0x10]) idle_bus 0x90 [] true).2) =
      [Call.start, Call.write_byte 0x20 true, Call.stop] ∧
    (mp_hal_i2c_write (device_bus [0x10]) idle_bus 0x90 [] true).1 = Outcome.ok :=
  ⟨((address_is_taken_modulo_128 (device_bus [0x10]) idle_bus 0x90 0 0 [] true).1 0x10
      (by decide)).1,
   by decide, by decide⟩

/-! ## What a listener hears during a read -/

theorem hears_trans {st1 st2 st3 : Listener} {s1 s2 s3 : machine_i2c_obj_t}
    (h12 : Hears st1 st2 s1 s2) (h23 : Hears st2 st3 s2 s3) : Hears st1 st3 s1 s3 := by
  obtain ⟨l1, hl1, hs1⟩ := h12
  obtain ⟨l2, hl2, hs2⟩ := h23
  exact ⟨l1 ++ l2, by simp [hl2, hl1], by rw [List.foldl_append, hs1, hs2]⟩

theorem hears_start (self : machine_i2c_obj_t) (st : Listener) :
    Hears st { scl := true, sda := false, bits := [] } self (mp_hal_i2c_start self) := by
  refine ⟨_, ?_, listen_start_events st self.us_delay⟩
  rw [start_eq]

theorem hears_stop (self : machine_i2c_obj_t) (sda : Bool) (bits : List Bool) :
    Hears { scl := false, sda := sda, bits := bits }
      { scl := true, sda := true, bits := bits ++ [false] } self (mp_hal_i2c_stop self) := by
  refine ⟨[Ev.atomic_begin, Ev.delay self.us_delay, Ev.sda_low, Ev.delay self.us_delay,
       Ev.scl_release, Ev.delay self.us_delay, Ev.sda_release, Ev.delay self.us_delay,
       Ev.atomic_end, Ev.ret Call.stop], by rw [stop_eq], ?_⟩
  simp [Listener.step]

theorem listen_write_byte_head_state (st : Listener) (d val : Nat) :
    (write_byte_head d val).foldl Listener.step st =
      { scl := true, sda := true, bits := st.bits ++ (byte_bits val ++ [true]) } := by
  unfold write_byte_head
  simp only [List.foldl_cons, List.foldl_append, listen_write_bit_events, List.foldl_nil]
  simp [Listener.step, byte_bits]

theorem hears_write_byte (env : Responder) (self : machine_i2c_obj_t) (val : Nat)
    (st : Listener) :
    Hears st { scl := false, sda := true, bits := st.bits ++ (byte_bits (val % 256) ++ [true]) }
      self (mp_hal_i2c_write_byte env self val).2 := by
  refine ⟨write_byte_head self.us_delay (val % 256) ++
    write_byte_tail self.us_delay (val % 256)
      (env (self.log ++ write_byte_head self.us_delay (val % 256))), ?_, ?_⟩
  · rw [write_byte_eq]
    simp
  · rw [List.foldl_append, listen_write_byte_head_state]
    simp [write_byte_tail, Listener.step]

theorem read_samples_length (env : Responder) (d : Nat) (n : Nat) :
    ∀ log, (read_samples env d n log).length = n := by
  induction n with
  | zero => intro log; rfl
  | succ n ih => intro log; simp [read_samples, ih]

theorem listen_read_bits (d : Nat) (bits : List Nat) :
    ∀ (scl sda : Bool) (heard : List Bool),
      ((bits.flatMap (read_bit_events d)).foldl Listener.step
          { scl := scl, sda := sda, bits := heard }).sda = sda ∧
      ((bits.flatMap (read_bit_events d)).foldl Listener.step
          { scl := scl, sda := sda, bits := heard }).bits =
        heard ++ List.replicate bits.length sda := by
  induction bits with
  | nil => intro scl sda heard; simp
  | cons b bits ih =>
    intro scl sda heard
    rw [List.flatMap_cons, List.foldl_append]
    have h1 : (read_bit_events d b).foldl Listener.step
        { scl := scl, sda := sda, bits := heard } =
        { scl := true, sda := sda, bits := heard ++ [sda] } := by
      simp [read_bit_events, read_bit_head, Listener.step]
    rw [h1]
    refine ⟨(ih true sda (heard ++ [sda])).1, ?_⟩
    rw [(ih true sda (heard ++ [sda])).2]
    simp [List.replicate_succ]

/-- A listener hears a read-byte present the data level it was entered with
during the eight data slots (the master does not touch the data line) and, at
the ninth rising clock edge, a low level unless `nack` is set. -/
theorem hears_read_byte (env : Responder) (self : machine_i2c_obj_t) (nack : Bool)
    (st : Listener) :
    Hears st
      { scl := false, sda := true,
        bits := st.bits ++ (List.replicate 8 st.sda ++ [st.sda && nack]) }
      self (mp_hal_i2c_read_byte env self nack).2.2 := by
  refine ⟨read_byte_events self.us_delay nack
    (read_samples env self.us_delay 8 (self.log ++ [Ev.delay self.us_delay])), ?_, ?_⟩
  · rw [read_byte_eq]
  · rcases st with ⟨scl, sda, heard⟩
    have hlen := read_samples_length env self.us_delay 8
      (self.log ++ [Ev.delay self.us_delay])
    have hb := listen_read_bits self.us_delay
      (read_samples env self.us_delay 8 (self.log ++ [Ev.delay self.us_delay])) scl sda heard
    rw [hlen] at hb
    unfold read_byte_events
    rw [List.foldl_cons, List.foldl_append]
    have h0 : Listener.step { scl := scl, sda := sda, bits := heard }
        (Ev.delay self.us_delay) = { scl := scl, sda := sda, bits := heard } := rfl
    rw [h0]
    generalize (List.flatMap
      (read_samples env self.us_delay 8 (self.log ++ [Ev.delay self.us_delay]))
      (read_bit_events self.us_delay)).foldl Listener.step
        { scl := scl, sda := sda, bits := heard } = g at hb
    rcases g with ⟨gscl, gsda, gbits⟩
    simp only at hb
    rw [hb.1, hb.2]
    cases nack <;> cases sda <;> simp [Listener.step]

theorem hears_read_loop (env : Responder) (len : Nat) :
    ∀ (buf : List Nat) (self : machine_i2c_obj_t) (heard : List Bool),
      Hears { scl := false, sda := true, bits := heard }
        { scl := false, sda := true,
          bits := heard ++ (nack_flags len).flatMap read_slot_levels }
        self (read_loop env len buf self).2.2 := by
  induction len with
  | zero =>
    intro buf self heard
    exact ⟨[], by simp [read_loop], by simp [nack_flags]⟩
  | succ n ih =>
    intro buf self heard
    have h1 := hears_read_byte env self (n == 0) { scl := false, sda := true, bits := heard }
    obtain ⟨_, _, _, hr⟩ := read_byte_run env self (n == 0)
    have h2 := ih (buf ++ [(mp_hal_i2c_read_byte env self (n == 0)).2.1])
      (mp_hal_i2c_read_byte env self (n == 0)).2.2
      (heard ++ (List.replicate 8 true ++ [true && (n == 0)]))
    have h := hears_trans h1 h2
    rw [read_loop]
    simpa [hr, nack_flags_succ, read_slot_levels] using h

/-- What a listener hears during `mp_hal_i2c_read`, in either outcome. -/
theorem hears_read (env : Responder) (self : machine_i2c_obj_t) (addr len : Nat)
    (st : Listener) :
    ((mp_hal_i2c_read env self addr len).1 = Outcome.ok ∧
      Hears st
        { scl := true, sda := true,
          bits := byte_bits ((((addr % 256) <<< 1) ||| 1) % 256) ++ [true] ++
            (nack_flags len).flatMap read_slot_levels ++ [false] }
        self (mp_hal_i2c_read env self addr len).2.2) ∨
    ((mp_hal_i2c_read env self addr len).1 = Outcome.bus_error ∧
      Hears st
        { scl := true, sda := true,
          bits := byte_bits ((((addr % 256) <<< 1) ||| 1) % 256) ++ [true] ++ [false] }
        self (mp_hal_i2c_read env self addr len).2.2) := by
  have h0 := hears_start self st
  have h1 := hears_write_byte env (mp_hal_i2c_start self) (((addr % 256) <<< 1) ||| 1)
    { scl := true, sda := false, bits := [] }
  obtain ⟨_, _, hdone, _⟩ := read_loop_run env len []
    (mp_hal_i2c_write_byte env (mp_hal_i2c_start self) (((addr % 256) <<< 1) ||| 1)).2
  cases hack : (mp_hal_i2c_write_byte env (mp_hal_i2c_start self)
      (((addr % 256) <<< 1) ||| 1)).1 with
  | false =>
    right
    have h := hears_trans (hears_trans h0 h1) (hears_stop _ true _)
    simp only [List.nil_append] at h
    have hout : (mp_hal_i2c_read env self addr len).1 = Outcome.bus_error := by
      simp [mp_hal_i2c_read, hack, er]
    have hst : (mp_hal_i2c_read env self addr len).2.2 = mp_hal_i2c_stop
        (mp_hal_i2c_write_byte env (mp_hal_i2c_start self) (((addr % 256) <<< 1) ||| 1)).2 := by
      simp [mp_hal_i2c_read, hack, er]
    rw [hst]
    exact ⟨hout, h⟩
  | true =>
    left
    have h := hears_trans (hears_trans (hears_trans h0 h1) (hears_read_loop env len [] _ _))
      (hears_stop _ true _)
    simp only [List.nil_append] at h
    have hout : (mp_hal_i2c_read env self addr len).1 = Outcome.ok := by
      simp [mp_hal_i2c_read, hack, hdone]
    have hst : (mp_hal_i2c_read env self addr len).2.2 = mp_hal_i2c_stop
        (read_loop env len [] (mp_hal_i2c_write_byte env (mp_hal_i2c_start self)
          (((addr % 256) <<< 1) ||| 1)).2).2.2 := by
      simp [mp_hal_i2c_read, hack, hdone]
    rw [hst]
    exact ⟨hout, h⟩

theorem pin_events_read_bits (d : Nat) (bits : List Nat) :
    pin_events (bits.flatMap (read_bit_events d)) =
      bits.flatMap fun b => [Ev.scl_low, Ev.scl_release, Ev.sda_read b] := by
  induction bits with
  | nil => rfl
  | cons b bits ih =>
    rw [List.flatMap_cons, List.flatMap_cons, pin_events_append, ih]
    simp [pin_events, read_bit_events, read_bit_head]

theorem pin_events_read_byte (d : Nat) (nack : Bool) (bits : List Nat) :
    pin_events (read_byte_events d nack bits) =
      (bits.flatMap fun b => [Ev.scl_low, Ev.scl_release, Ev.sda_read b]) ++
        ([Ev.scl_low] ++ (if nack then [] else [Ev.sda_low]) ++
          [Ev.scl_release, Ev.scl_low, Ev.sda_release]) := by
  unfold read_byte_events
  rw [show ∀ (e : Ev) (l : List Ev), e :: l = [e] ++ l from fun _ _ => rfl]
  rw [pin_events_append, pin_events_append, pin_events_read_bits]
  cases nack <;> simp [pin_events]

theorem hears_since {st st' : Listener} {self self' : machine_i2c_obj_t}
    (h : Hears st st' self self') : (since self self').foldl Listener.step st = st' := by
  obtain ⟨l, hl, hs⟩ := h
  rw [since_of_log_eq hl, hs]

/-- C8: when the address byte `(addr << 1) | 1` is acknowledged,
`mp_hal_i2c_read` performs start, that write-byte, exactly `len` read-bytes
whose generate-nack argument is false for the first `len - 1` and true for the
last one only, and then one stop; with `len = 0` it performs start, the address
byte and stop and no read-byte.  On the lines: a read-byte drives the data line
low only when its generate-nack argument is false, and then between the ninth
fall and the ninth rise of the clock, releasing it only after the clock is low
again; a listener therefore clocks in, at the ninth rising edge of a read-byte
entered with the data line released, a low level exactly when generate-nack is
false; and over the whole transaction it clocks in the address byte, the
released acknowledge slot, and per byte eight released data slots followed
by an acknowledge slot that is low for every byte but the last. -/
theorem read_nacks_last_byte_only (env : Responder) (self : machine_i2c_obj_t)
    (addr len : Nat)
    (hack : nacked (since self (mp_hal_i2c_read env self addr len).2.2) = false) :
    calls (since self (mp_hal_i2c_read env self addr len).2.2) =
      [Call.start, Call.write_byte ((((addr % 256) <<< 1) ||| 1) % 256) true] ++
        List.zipWith Call.read_byte
          (List.replicate (len - 1) false ++ (if len = 0 then [] else [true]))
          (mp_hal_i2c_read env self addr len).2.1 ++
        [Call.stop] ∧
    (mp_hal_i2c_read env self addr len).2.1.length = len ∧
    (len = 0 → calls (since self (mp_hal_i2c_read env self addr len).2.2) =
      [Call.start, Call.write_byte ((((addr % 256) <<< 1) ||| 1) % 256) true, Call.stop]) ∧
    (∀ (s : machine_i2c_obj_t) (nack : Bool),
      Ev.sda_low ∈ since s (mp_hal_i2c_read_byte env s nack).2.2 ↔ nack = false) ∧
    (∀ (s : machine_i2c_obj_t) (nack : Bool),
      pin_events (since s (mp_hal_i2c_read_byte env s nack).2.2) =
        ((read_samples env s.us_delay 8 (s.log ++ [Ev.delay s.us_delay])).flatMap
          fun b => [Ev.scl_low, Ev.scl_release, Ev.sda_read b]) ++
        ([Ev.scl_low] ++ (if nack then [] else [Ev.sda_low]) ++
          [Ev.scl_release, Ev.scl_low, Ev.sda_release])) ∧
    (∀ (s : machine_i2c_obj_t) (nack : Bool) (st : Listener),
      ((since s (mp_hal_i2c_read_byte env s nack).2.2).foldl Listener.step st).bits =
        st.bits ++ (List.replicate 8 st.sda ++ [st.sda && nack])) ∧
    (∀ st : Listener,
      ((since self (mp_hal_i2c_read env self addr len).2.2).foldl Listener.step st).bits =
        byte_bits ((((addr % 256) <<< 1) ||| 1) % 256) ++ [true] ++
          (List.replicate (len - 1) false ++ (if len = 0 then [] else [true])).flatMap
            (fun nack => List.replicate 8 true ++ [nack]) ++
          [false]) := by
  obtain ⟨l, hl, h⟩ := read_run env self addr len
  have hlast : ∀ (s : machine_i2c_obj_t) (nack : Bool),
      Ev.sda_low ∈ since s (mp_hal_i2c_read_byte env s nack).2.2 ↔ nack = false := by
    intro s nack
    rw [read_byte_eq, since_of_log_eq rfl]
    exact sda_low_mem_read_byte_events _ _ _
  have hpins : ∀ (s : machine_i2c_obj_t) (nack : Bool),
      pin_events (since s (mp_hal_i2c_read_byte env s nack).2.2) =
        ((read_samples env s.us_delay 8 (s.log ++ [Ev.delay s.us_delay])).flatMap
          fun b => [Ev.scl_low, Ev.scl_release, Ev.sda_read b]) ++
        ([Ev.scl_low] ++ (if nack then [] else [Ev.sda_low]) ++
          [Ev.scl_release, Ev.scl_low, Ev.sda_release]) := by
    intro s nack
    rw [read_byte_eq, since_of_log_eq rfl]
    exact pin_events_read_byte _ _ _
  have hslot : ∀ (s : machine_i2c_obj_t) (nack : Bool) (st : Listener),
      ((since s (mp_hal_i2c_read_byte env s nack).2.2).foldl Listener.step st).bits =
        st.bits ++ (List.replicate 8 st.sda ++ [st.sda && nack]) := by
    intro s nack st
    rw [hears_since (hears_read_byte env s nack st)]
  have hok : (mp_hal_i2c_read env self addr len).1 = Outcome.ok := by
    rcases h with ⟨hok, _, _⟩ | ⟨_, _, hc⟩
    · exact hok
    · exfalso
      rw [since_of_log_eq hl, nacked, hc] at hack
      simp [is_nack] at hack
  have hwhole : ∀ st : Listener,
      ((since self (mp_hal_i2c_read env self addr len).2.2).foldl Listener.step st).bits =
        byte_bits ((((addr % 256) <<< 1) ||| 1) % 256) ++ [true] ++
          (List.replicate (len - 1) false ++ (if len = 0 then [] else [true])).flatMap
            (fun nack => List.replicate 8 true ++ [nack]) ++
          [false] := by
    intro st
    rcases hears_read env self addr len st with ⟨_, hh⟩ | ⟨hko, _⟩
    · rw [hears_since hh]
      rfl
    · rw [hok] at hko
      cases hko
  rw [since_of_log_eq hl] at hack ⊢
  rcases h with ⟨_, hlen, hc⟩ | ⟨_, _, hc⟩
  · refine ⟨hc, hlen, ?_, hlast, hpins, hslot, ?_⟩
    · intro h0
      rw [hc, h0]
      simp [nack_flags]
    · rw [← since_of_log_eq hl]
      exact hwhole
  · exfalso
    rw [nacked, hc] at hack
    simp [is_nack] at hack

set_option maxRecDepth 100000 in
/-- C8 at a concrete input: two bytes read from address 0x50 on a bus that
holds the data line low.  The listener hears the address byte 0xA1 and its
released acknowledge slot, a first byte whose acknowledge slot is low, a second
byte whose acknowledge slot is released, and the clock edge of the stop. -/
theorem read_nacks_last_byte_only_witness :
    calls (since idle_bus (mp_hal_i2c_read always_ack idle_bus 0x50 2).2.2) =
      [Call.start, Call.write_byte 0xA1 true, Call.read_byte false 0, Call.read_byte true 0,
       Call.stop] ∧
    ((since idle_bus (mp_hal_i2c_read always_ack idle_bus 0x50 2).2.2).foldl Listener.step
        { scl := true, sda := true, bits := [] }).bits =
      [true, false, true, false, false, false, false, true, true,
       true, true, true, true, true, true, true, true, false,
       true, true, true, true, true, true, true, true, true,
       false] :=
  ⟨(read_nacks_last_byte_only always_ack idle_bus 0x50 2 (by decide)).1,
   (read_nacks_last_byte_only always_ack idle_bus 0x50 2 (by decide)).2.2.2.2.2.2
     { scl := true, sda := true, bits := [] }⟩

end MachineI2C
